import Mathlib

/-!
Verification development for the MindScript language core
(lexer/parser/evaluator/type checker/schema emitter/oracle runtime).

The definitions below are a shallow embedding of the Python sources
(`src/mindscript/types.py`, `runtime.py`, `objects.py`, `oracle.py`,
`schema.py`).  Python integers are `Int`, Python floats are an explicit
extended-rational type with a NaN element, Python dicts are ordered
association lists (Python guarantees key uniqueness; where a result
depends on it we state it as a hypothesis), and a raised Python
exception is `Option.none` / `Except.error`.

The embedded type-expression fragment contains every TypeExpr
constructor except identifier references (`TypeTerminal` with an `ID`
token): resolving those walks an environment chain, and the claims
under study only involve closed structural types.  For identifier-free
types the `visited` memoization set of `_subtype_recursion` can never
change a result (every `False` short-circuits to the top immediately,
so a pair can only be revisited after it was computed `True`), so it is
omitted and the recursion is structural.
-/

namespace MindScript

/-- Model of a CPython `float`: a finite (dyadic, hence rational) value,
the two infinities, or NaN. -/
inductive PyFloat where
  | finite (q : ℚ)
  | inf
  | ninf
  | nan
deriving DecidableEq, Repr

/-- The primitive type names carried by `TYPE` tokens
(`Null`, `Bool`, `Int`, `Num`, `Str`, `Any`, `Type`). -/
inductive Prim where
  | pNull | pBool | pInt | pNum | pStr | pAny | pType
deriving DecidableEq, Repr

mutual
/-- `ast.TypeExpr`: type expressions (identifier references excluded,
see the header comment).  `tannot` is the `TypeAnnotation` wrapper node;
the per-node `annotation` string field of the Python AST is not modelled
(none of the types in the claims carry one). -/
inductive TypeExpr where
  | terminal (p : Prim)
  | unary (t : TypeExpr)
  | binary (l r : TypeExpr)
  | arr (t : TypeExpr)
  | tmap (fields : List (String × TypeExpr)) (required : List String)
  | tenum (values : List MObject)
  | grouping (t : TypeExpr)
  | tannot (s : String) (t : TypeExpr)

/-- The payload of an `MValue` (`None`, `bool`, `int`, `float`, `str`,
`list`, `dict`). -/
inductive MVal where
  | vnull
  | vbool (b : Bool)
  | vint (n : ℤ)
  | vfloat (f : PyFloat)
  | vstr (s : String)
  | vlist (xs : List MObject)
  | vdict (m : List (String × MObject))

/-- `objects.MObject`: a plain value with its annotation slot, a type
value, or a function value.  A function is modelled by its Python
identity (`fid`, for `id()`-based equality) and its stored
`definition.types` chain, which the AST constrains to be a `TypeBinary`
with parts `argT` and `retT`; these are the only fields the type
checker and `compare` consult. -/
inductive MObject where
  | mval (v : MVal) (annot : Option String)
  | mtype (t : TypeExpr)
  | mfun (fid : ℕ) (argT retT : TypeExpr)
end

open TypeExpr MVal MObject

/-- Python `==` between two floats: NaN is not equal to anything,
including itself. -/
def PyFloat.beqF : PyFloat → PyFloat → Bool
  | .finite p, .finite q => p == q
  | .inf, .inf => true
  | .ninf, .ninf => true
  | _, _ => false

/-- Python `==` between a float and an int (exact numeric equality). -/
def PyFloat.beqInt : PyFloat → ℤ → Bool
  | .finite q, n => q == (n : ℚ)
  | _, _ => false

/-- Python `key in d` / `d[key]` on an (ordered) dict. -/
def findVal {α : Type} (k : String) : List (String × α) → Option α
  | [] => none
  | (k', v) :: rest => if k' = k then some v else findVal k rest

theorem findVal_sizeOf {α : Type} [SizeOf α] {k : String} {l : List (String × α)} {v : α}
    (h : findVal k l = some v) : sizeOf v < sizeOf l := by
  induction l with
  | nil => simp [findVal] at h
  | cons p rest ih =>
    obtain ⟨k', v'⟩ := p
    simp only [findVal] at h
    split at h
    · cases h; simp; omega
    · have := ih h; simp; omega

/-- `TypeChecker._resolve_type` on the identifier-free fragment:
transparently strips `TypeAnnotation` and `TypeGrouping` wrappers. -/
def resolveT : TypeExpr → TypeExpr
  | .tannot _ t => resolveT t
  | .grouping t => resolveT t
  | .terminal p => .terminal p
  | .unary t => .unary t
  | .binary l r => .binary l r
  | .arr t => .arr t
  | .tmap fs req => .tmap fs req
  | .tenum vs => .tenum vs

theorem resolveT_sizeOf_le : ∀ t : TypeExpr, sizeOf (resolveT t) ≤ sizeOf t
  | .tannot _ t => by
    have := resolveT_sizeOf_le t
    simp only [resolveT]; simp; omega
  | .grouping t => by
    have := resolveT_sizeOf_le t
    simp only [resolveT]; simp; omega
  | .terminal _ => by simp [resolveT]
  | .unary _ => by simp [resolveT]
  | .binary _ _ => by simp [resolveT]
  | .arr _ => by simp [resolveT]
  | .tmap _ _ => by simp [resolveT]
  | .tenum _ => by simp [resolveT]
termination_by t => sizeOf t

theorem lexLeft {a b p q : ℕ} (h : a < b) :
    Prod.Lex (· < ·) (· < ·) (a, p) (b, q) := Prod.Lex.left _ _ h

theorem lexLe {a b p q : ℕ} (h1 : a ≤ b) (h2 : p < q) :
    Prod.Lex (· < ·) (· < ·) (a, p) (b, q) := by
  rcases Nat.lt_or_eq_of_le h1 with h | h
  · exact Prod.Lex.left _ _ h
  · subst h; exact Prod.Lex.right _ h2

mutual
/-- `Interpreter.compare` (runtime.py 141-167): structural deep equality
used by `==`.  `none` models an uncaught Python exception (a `KeyError`
from `y[key]` when two same-sized dicts have different key sets, possibly
propagated out of a nested `issubtype`).  The source of line 163 tests
`type(lvalue) == MType` twice, so that branch fires whenever the left
operand is a type; `issubtype` then returns `False` unless both operands
are types. -/
def compare : MObject → MObject → Option Bool
  | .mval x _, .mval y _ =>
    match x, y with
    | .vnull, .vnull => some true
    | .vbool a, .vbool b => some (a == b)
    | .vint a, .vint b => some (a == b)
    | .vint a, .vfloat g => some (g.beqInt a)
    | .vfloat f, .vint b => some (f.beqInt b)
    | .vfloat f, .vfloat g => some (f.beqF g)
    | .vstr a, .vstr b => some (a == b)
    | .vlist a, .vlist b =>
      if a.length = b.length then cmpList a b else some false
    | .vdict a, .vdict b =>
      if a.length = b.length then cmpDict a b else some false
    | _, _ => some false
  | .mtype t₁, y =>
    match y with
    | .mtype t₂ =>
      match subty t₁ t₂ with
      | none => none
      | some false => some false
      | some true => subty t₂ t₁
    | _ => some false
  | .mfun i _ _, .mfun j _ _ => some (i == j)
  | _, _ => some false
termination_by x y => (sizeOf x + sizeOf y, 2)
decreasing_by
  all_goals simp_wf
  all_goals first
  | exact lexLeft (by omega)
  | exact lexLeft (by have := findVal_sizeOf h; omega)
  | exact lexLe
      (by have := resolveT_sizeOf_le t1; have := resolveT_sizeOf_le t2; omega)
      (by omega)
  | exact lexLe (by omega) (by omega)

/-- `all(compare(sx, sy) for sx, sy in zip(x, y))`: lazy, so a `False`
stops evaluation before any later exception. -/
def cmpList : List MObject → List MObject → Option Bool
  | [], _ => some true
  | _ :: _, [] => some true
  | x :: xs, y :: ys =>
    match compare x y with
    | none => none
    | some false => some false
    | some true => cmpList xs ys
termination_by xs ys => (sizeOf xs + sizeOf ys, 1)
decreasing_by
  all_goals simp_wf
  all_goals first
  | exact lexLeft (by omega)
  | exact lexLeft (by have := findVal_sizeOf h; omega)
  | exact lexLe
      (by have := resolveT_sizeOf_le t1; have := resolveT_sizeOf_le t2; omega)
      (by omega)
  | exact lexLe (by omega) (by omega)

/-- `all(compare(x[key], y[key]) for key in x.keys())`: `y[key]` raises
`KeyError` (modelled by `none`) when a key of `x` is missing from `y`. -/
def cmpDict : List (String × MObject) → List (String × MObject) → Option Bool
  | [], _ => some true
  | (k, xv) :: rest, y =>
    match h : findVal k y with
    | none => none
    | some yv =>
      match compare xv yv with
      | none => none
      | some false => some false
      | some true => cmpDict rest y
termination_by x y => (sizeOf x + sizeOf y, 1)
decreasing_by
  all_goals simp_wf
  all_goals first
  | exact lexLeft (by omega)
  | exact lexLeft (by have := findVal_sizeOf h; omega)
  | exact lexLe
      (by have := resolveT_sizeOf_le t1; have := resolveT_sizeOf_le t2; omega)
      (by omega)
  | exact lexLe (by omega) (by omega)

/-- `TypeChecker._subtype_recursion` (types.py 93-158) on the
identifier-free fragment.  The `visited` set is omitted: without
identifier references the two type trees are finite and every `False`
short-circuits to the top at once, so a pair can be revisited only after
having been computed `True` (see the header comment). -/
def subty (t1 t2 : TypeExpr) : Option Bool :=
  subtyR (resolveT t1) (resolveT t2)
termination_by (sizeOf t1 + sizeOf t2, 1)
decreasing_by
  all_goals simp_wf
  all_goals first
  | exact lexLeft (by omega)
  | exact lexLeft (by have := findVal_sizeOf h; omega)
  | exact lexLe
      (by have := resolveT_sizeOf_le t1; have := resolveT_sizeOf_le t2; omega)
      (by omega)
  | exact lexLe (by omega) (by omega)

/-- The dispatch of `_subtype_recursion` after both sides are resolved;
the match arms are ordered exactly as the source's `elif` chain. -/
def subtyR : TypeExpr → TypeExpr → Option Bool
  | _, .terminal .pAny => some true
  | .terminal p1, .terminal p2 => some (p1 == p2)
  | .arr a, .arr b => subty a b
  | .tmap f1 r1, .tmap f2 r2 =>
    if r2.all (fun k => r1.contains k) then subtyFields f1 f2 else some false
  | .tenum v1, .tenum v2 => enumSub v1 v2
  | .tenum v1, t2 => enumAll v1 t2
  | .unary a, .unary b => subty a b
  | .terminal .pNull, .unary _ => some true
  | t1, .unary b => subty t1 b
  | .binary l1 r1, .binary l2 r2 =>
    match subty l1 l2 with
    | none => none
    | some false => some false
    | some true => subty r1 r2
  | _, _ => some false
termination_by t1 t2 => (sizeOf t1 + sizeOf t2, 0)
decreasing_by
  all_goals simp_wf
  all_goals first
  | exact lexLeft (by omega)
  | exact lexLeft (by have := findVal_sizeOf h; omega)
  | exact lexLe
      (by have := resolveT_sizeOf_le t1; have := resolveT_sizeOf_le t2; omega)
      (by omega)
  | exact lexLe (by omega) (by omega)

/-- The common-key loop of the map-vs-map case: keys of the subtype map
absent from the supertype map are ignored (width subtyping). -/
def subtyFields : List (String × TypeExpr) → List (String × TypeExpr) → Option Bool
  | [], _ => some true
  | (k, a) :: rest, f2 =>
    match h : findVal k f2 with
    | none => subtyFields rest f2
    | some b =>
      match subty a b with
      | none => none
      | some false => some false
      | some true => subtyFields rest f2
termination_by f1 f2 => (sizeOf f1 + sizeOf f2, 0)
decreasing_by
  all_goals simp_wf
  all_goals first
  | exact lexLeft (by omega)
  | exact lexLeft (by have := findVal_sizeOf h; omega)
  | exact lexLe
      (by have := resolveT_sizeOf_le t1; have := resolveT_sizeOf_le t2; omega)
      (by omega)
  | exact lexLe (by omega) (by omega)

/-- Enum vs enum: every member of the first enum must `compare` equal to
some member of the second. -/
def enumSub : List MObject → List MObject → Option Bool
  | [], _ => some true
  | v :: vs, ws =>
    match existsCmp v ws with
    | none => none
    | some false => some false
    | some true => enumSub vs ws
termination_by v w => (sizeOf v + sizeOf w, 1)
decreasing_by
  all_goals simp_wf
  all_goals first
  | exact lexLeft (by omega)
  | exact lexLeft (by have := findVal_sizeOf h; omega)
  | exact lexLe
      (by have := resolveT_sizeOf_le t1; have := resolveT_sizeOf_le t2; omega)
      (by omega)
  | exact lexLe (by omega) (by omega)

/-- The inner member search of the enum cases (`for val2 in ...:
if compare(val1, val2): ...`); exceptions from `compare` propagate. -/
def existsCmp : MObject → List MObject → Option Bool
  | _, [] => some false
  | v, w :: ws =>
    match compare v w with
    | none => none
    | some true => some true
    | some false => existsCmp v ws
termination_by v ws => (sizeOf v + sizeOf ws, 0)
decreasing_by
  all_goals simp_wf
  all_goals first
  | exact lexLeft (by omega)
  | exact lexLeft (by have := findVal_sizeOf h; omega)
  | exact lexLe
      (by have := resolveT_sizeOf_le t1; have := resolveT_sizeOf_le t2; omega)
      (by omega)
  | exact lexLe (by omega) (by omega)

/-- Enum vs non-enum: every member must pass `checktype` against the
target. -/
def enumAll : List MObject → TypeExpr → Option Bool
  | [], _ => some true
  | v :: vs, t =>
    match checkty v t with
    | none => none
    | some false => some false
    | some true => enumAll vs t
termination_by v t => (sizeOf v + sizeOf t, 0)
decreasing_by
  all_goals simp_wf
  all_goals first
  | exact lexLeft (by omega)
  | exact lexLeft (by have := findVal_sizeOf h; omega)
  | exact lexLe
      (by have := resolveT_sizeOf_le t1; have := resolveT_sizeOf_le t2; omega)
      (by omega)
  | exact lexLe (by omega) (by omega)

/-- `TypeChecker._checktype_recursion` (types.py 9-73) on the
identifier-free fragment; match arms ordered as the source's tests.
Note that (unlike `subty`) the source does not resolve grouping or
annotation wrappers around the target here. -/
def checkty (value : MObject) (target : TypeExpr) : Option Bool :=
  match value, target with
  | _, .terminal .pAny => some true
  | .mval v a, t =>
    match v, t with
    | .vnull, .terminal .pNull => some true
    | .vbool _, .terminal .pBool => some true
    | .vint _, .terminal .pInt => some true
    | .vint _, .terminal .pNum => some true
    | .vfloat _, .terminal .pNum => some true
    | .vstr _, .terminal .pStr => some true
    | .vlist xs, .arr et => checkList xs et
    | .vdict m, .tmap fs req => checkFields m fs req
    | v', .tenum vs => existsCmp (.mval v' a) vs
    | .vnull, .unary _ => some true
    | v', .unary u => checkty (.mval v' a) u
    | _, _ => some false
  | .mtype _, .terminal .pType => some true
  | .mfun _ aT rT, t => subty (.binary aT rT) t
  | _, _ => some false
termination_by (sizeOf value + sizeOf target, 2)
decreasing_by
  all_goals simp_wf
  all_goals first
  | exact lexLeft (by omega)
  | exact lexLeft (by have := findVal_sizeOf h; omega)
  | exact lexLe
      (by have := resolveT_sizeOf_le t1; have := resolveT_sizeOf_le t2; omega)
      (by omega)
  | exact lexLe (by omega) (by omega)

/-- `all(checktype(svalue, starget) for svalue in value)`: lazy. -/
def checkList : List MObject → TypeExpr → Option Bool
  | [], _ => some true
  | x :: xs, t =>
    match checkty x t with
    | none => none
    | some false => some false
    | some true => checkList xs t
termination_by xs t => (sizeOf xs + sizeOf t, 1)
decreasing_by
  all_goals simp_wf
  all_goals first
  | exact lexLeft (by omega)
  | exact lexLeft (by have := findVal_sizeOf h; omega)
  | exact lexLe
      (by have := resolveT_sizeOf_le t1; have := resolveT_sizeOf_le t2; omega)
      (by omega)
  | exact lexLe (by omega) (by omega)

/-- The map-target loop of `_checktype_recursion`: walk the target's
fields in order; a present key must check, an absent required key fails,
and required keys found are crossed off; leftovers fail. -/
def checkFields : List (String × MObject) → List (String × TypeExpr) → List String → Option Bool
  | _, [], req => some req.isEmpty
  | v, (k, ft) :: rest, req =>
    match h : findVal k v with
    | some xv =>
      match checkty xv ft with
      | none => none
      | some false => some false
      | some true => checkFields v rest (req.erase k)
    | none =>
      if req.contains k then some false else checkFields v rest req
termination_by v fs req => (sizeOf v + sizeOf fs, 1)
decreasing_by
  all_goals simp_wf
  all_goals first
  | exact lexLeft (by omega)
  | exact lexLeft (by have := findVal_sizeOf h; omega)
  | exact lexLe
      (by have := resolveT_sizeOf_le t1; have := resolveT_sizeOf_le t2; omega)
      (by omega)
  | exact lexLe (by omega) (by omega)
end

/-- `TypeChecker.issubtype` (types.py 243-250): returns `False` unless
both arguments are type objects, otherwise compares their definitions. -/
def issubtypeM : MObject → MObject → Option Bool
  | .mtype t1, .mtype t2 => subty t1 t2
  | _, _ => some false

mutual
/-- `TypeChecker._typeof_recursion` (types.py 160-233).  Lists infer
`[T]` by the most-general-type scan; dicts infer a `TypeMap` with empty
`required`; a function's type is its stored `TypeBinary` chain; a type
value has type `Type`.  `none` models an exception propagating out of a
nested `_subtype_recursion` call. -/
def typeofE : MObject → Option TypeExpr
  | .mval v _ =>
    match v with
    | .vnull => some (terminal .pNull)
    | .vbool _ => some (terminal .pBool)
    | .vstr _ => some (terminal .pStr)
    | .vint _ => some (terminal .pInt)
    | .vfloat _ => some (terminal .pNum)
    | .vlist [] => some (arr (terminal .pAny))
    | .vlist (x :: rest) =>
      match scanItems (x :: rest) none false with
      | none => none
      | some (g, nullable, anyflag) =>
        if anyflag then some (arr (terminal .pAny))
        else
          match g with
          | none => some (arr (terminal .pNull))
          | some gt => some (arr (if nullable then unary gt else gt))
    | .vdict m =>
      match dictTypes m with
      | none => none
      | some fields => some (tmap fields [])
  | .mfun _ aT rT => some (binary aT rT)
  | .mtype _ => some (terminal .pType)
termination_by x => sizeOf x

/-- The most-general-type loop of the list case of `_typeof_recursion`:
state is the running `gtype` and the `nullable` flag; the third result
component is the `anytype` flag, whose being set `break`s the loop. -/
def scanItems : List MObject → Option TypeExpr → Bool →
    Option (Option TypeExpr × Bool × Bool)
  | [], g, nullable => some (g, nullable, false)
  | item :: rest, g, nullable =>
    match typeofE item with
    | none => none
    | some t =>
      match t with
      | .terminal .pNull => scanItems rest g true
      | t' =>
        match g with
        | none => scanItems rest (some t') nullable
        | some gt =>
          match subty t' gt with
          | none => none
          | some true => scanItems rest (some gt) nullable
          | some false =>
            match subty gt t' with
            | none => none
            | some true => scanItems rest (some t') nullable
            | some false => some (g, nullable, true)
termination_by xs g n => sizeOf xs

/-- The dict case of `_typeof_recursion`: each key maps to the
recursively inferred type of its value. -/
def dictTypes : List (String × MObject) → Option (List (String × TypeExpr))
  | [] => some []
  | (k, x) :: rest =>
    match typeofE x with
    | none => none
    | some t =>
      match dictTypes rest with
      | none => none
      | some ts => some ((k, t) :: ts)
termination_by m => sizeOf m
end

/-- `checktype(v, typeof(v))` — the composition in invariant (P1);
`typeof` wraps its result in an `MType`, which `checktype` immediately
unwraps again, so the composition acts on the raw `TypeExpr`. -/
def checksOwnType (v : MObject) : Option Bool :=
  match typeofE v with
  | none => none
  | some t => checkty v t

-- Sanity checks of the embedding on concrete inputs.
example : subty (arr (terminal .pInt)) (arr (terminal .pNum)) = some false := by
  simp [subty, subtyR, resolveT]

example : subty (terminal .pInt) (terminal .pAny) = some true := by
  simp [subty, subtyR, resolveT]

example : checkty (mval (vint 3) none) (terminal .pInt) = some true := by
  simp [checkty]

example : typeofE (mval (vlist [mval (vint 1) none, mval vnull none]) none) =
    some (arr (unary (terminal .pInt))) := by
  simp [typeofE, scanItems]

example : compare (mval (vdict [("a", mval (vint 1) none)]) none)
    (mval (vdict [("b", mval (vint 1) none)]) none) = none := by
  simp [compare, cmpDict, findVal]

/-! ### Structural side conditions

Predicates over the embedded domain expressing invariants that the
Python runtime guarantees (dict keys unique) or that theorems need
(no NaN, no type object).  They are decidable and executable. -/

/-- Unique keys of one dict level (Python's `dict` cannot have
duplicates; the embedding uses association lists, so this is stated
explicitly where a result depends on it). -/
def nodupKeys {α : Type} : List (String × α) → Bool
  | [] => true
  | (k, _) :: rest => !(rest.any (fun p => p.1 == k)) && nodupKeys rest

mutual
/-- Every dict nested in the value (through lists and dicts) has unique
keys. -/
def dictsNodupO : MObject → Bool
  | .mval v _ => dictsNodupV v
  | .mtype _ => true
  | .mfun _ _ _ => true
def dictsNodupV : MVal → Bool
  | .vlist xs => dictsNodupL xs
  | .vdict m => nodupKeys m && dictsNodupE m
  | _ => true
def dictsNodupL : List MObject → Bool
  | [] => true
  | x :: xs => dictsNodupO x && dictsNodupL xs
def dictsNodupE : List (String × MObject) → Bool
  | [] => true
  | (_, x) :: m => dictsNodupO x && dictsNodupE m
end

mutual
/-- No type object occurs in the value (through lists and dicts). -/
def noTypesO : MObject → Bool
  | .mval v _ => noTypesV v
  | .mtype _ => false
  | .mfun _ _ _ => true
def noTypesV : MVal → Bool
  | .vlist xs => noTypesL xs
  | .vdict m => noTypesE m
  | _ => true
def noTypesL : List MObject → Bool
  | [] => true
  | x :: xs => noTypesO x && noTypesL xs
def noTypesE : List (String × MObject) → Bool
  | [] => true
  | (_, x) :: m => noTypesO x && noTypesE m
end

/-- All `compare` calls among the members of an enum return a boolean
(no `KeyError`); needed for the subtype check to be reflexive on the
enum, because the member search may compare distinct members before
finding the member itself. -/
def pairwiseDefined (vs : List MObject) : Bool :=
  vs.all (fun a => vs.all (fun b => (compare a b).isSome))

mutual
/-- Values on which `compare` is reflexive: no NaN leaf, nested dict
keys unique, and contained type objects reflexive for the subtype
check. -/
def selfEqSafeO : MObject → Bool
  | .mval v _ => selfEqSafeV v
  | .mtype t => reflSafeT t
  | .mfun _ _ _ => true
def selfEqSafeV : MVal → Bool
  | .vfloat .nan => false
  | .vlist xs => selfEqSafeL xs
  | .vdict m => nodupKeys m && selfEqSafeE m
  | _ => true
def selfEqSafeL : List MObject → Bool
  | [] => true
  | x :: xs => selfEqSafeO x && selfEqSafeL xs
def selfEqSafeE : List (String × MObject) → Bool
  | [] => true
  | (_, x) :: m => selfEqSafeO x && selfEqSafeE m
/-- Types on which the subtype check is reflexive: map fields have
unique keys, and enum members are self-equal and pairwise comparable
without exception. -/
def reflSafeT : TypeExpr → Bool
  | .terminal _ => true
  | .unary t => reflSafeT t
  | .binary l r => reflSafeT l && reflSafeT r
  | .arr t => reflSafeT t
  | .tmap fs _ => nodupKeys fs && reflSafeF fs
  | .tenum vs => selfEqSafeL vs && pairwiseDefined vs
  | .grouping t => reflSafeT t
  | .tannot _ t => reflSafeT t
def reflSafeF : List (String × TypeExpr) → Bool
  | [] => true
  | (_, t) :: fs => reflSafeT t && reflSafeF fs
end

/-! ### Array indexing (claim C10) -/

/-- `Interpreter.array_get` (runtime.py 322-343), in the branch where
the container is a list and the index an integer: `abs(index) < len`
admits the access at `index % len`, otherwise an "Array index out of
range" runtime error is raised. -/
def array_get (xs : List MObject) (i : ℤ) : Except String MObject :=
  if h : i.natAbs < xs.length then
    .ok (xs.get ⟨(i % (xs.length : ℤ)).toNat, by
      have hn : (0 : ℤ) < (xs.length : ℤ) := by
        have : 0 < xs.length := Nat.pos_of_ne_zero (by omega)
        exact_mod_cast this
      have h1 := Int.emod_nonneg i (by omega : (xs.length : ℤ) ≠ 0)
      have h2 := Int.emod_lt_of_pos i hn
      omega⟩)
  else .error "Array index out of range."

/-- The `ast.ArraySet` arm of `Interpreter.destructure`
(runtime.py 403-420): index writes use the same bound and the same
wrap-around as reads. -/
def array_set (xs : List MObject) (i : ℤ) (v : MObject) :
    Except String (List MObject) :=
  if i.natAbs < xs.length then
    .ok (xs.set (i % (xs.length : ℤ)).toNat v)
  else .error "Array index out of range."

/-- C10: for every non-empty array and integer index, a read returns the
element at position `i mod n` when `|i| < n` (negative indices address
from the end) and raises an index-out-of-range error when `|i| ≥ n`
(in particular for `i = -n`); writes use the same bound and the same
wrapped position. -/
theorem claim_C10 (xs : List MObject) (i : ℤ) (v : MObject)
    (hn : 0 < xs.length) :
    (i.natAbs < xs.length →
      ∃ e, xs.get? (i % (xs.length : ℤ)).toNat = some e ∧
        array_get xs i = .ok e ∧
        array_set xs i v = .ok (xs.set (i % (xs.length : ℤ)).toNat v)) ∧
    (xs.length ≤ i.natAbs →
      array_get xs i = .error "Array index out of range." ∧
      array_set xs i v = .error "Array index out of range.") := by
  have hn0 : (0 : ℤ) < (xs.length : ℤ) := by exact_mod_cast hn
  constructor
  · intro h
    have h1 := Int.emod_nonneg i (show (xs.length : ℤ) ≠ 0 by omega)
    have h2 := Int.emod_lt_of_pos i hn0
    have hlt : (i % (xs.length : ℤ)).toNat < xs.length := by omega
    refine ⟨xs.get ⟨_, hlt⟩, List.get?_eq_get hlt, ?_, ?_⟩
    · simp only [array_get]; rw [dif_pos h]
    · simp only [array_set]; rw [if_pos h]
  · intro h
    constructor
    · simp only [array_get]; rw [dif_neg (by omega)]
    · simp only [array_set]; rw [if_neg (by omega)]

/-- Witness for C10 at a concrete input: a 3-element array, read at
index `-1` (the last element) and rejected at index `-3`. -/
theorem claim_C10_witness :
    (0 < 3 ∧
      ∃ e, [mval (vint 10) none, mval (vint 20) none, mval (vint 30) none].get?
          ((-1 : ℤ) % (3 : ℤ)).toNat = some e ∧
        array_get [mval (vint 10) none, mval (vint 20) none, mval (vint 30) none] (-1) = .ok e) ∧
    array_get [mval (vint 10) none, mval (vint 20) none, mval (vint 30) none] (-3) =
      .error "Array index out of range." := by
  have h := claim_C10 [mval (vint 10) none, mval (vint 20) none, mval (vint 30) none]
      (-1) (mval vnull none) (by decide)
  have h3 := claim_C10 [mval (vint 10) none, mval (vint 20) none, mval (vint 30) none]
      (-3) (mval vnull none) (by decide)
  refine ⟨⟨by decide, ?_⟩, ?_⟩
  · obtain ⟨e, he1, he2, _⟩ := h.1 (by decide)
    exact ⟨e, he1, he2⟩
  · exact (h3.2 (by decide)).1

/-! ### Function subtyping (claims C1 and C2) -/

/-- C1 counterexample: the source checks `t1.left <: t2.left` (covariant),
so `Int -> Int <: Any -> Int` holds even though the claimed contravariant
condition `Any <: Int` fails; the claimed equivalence is false at this
input. -/
theorem claim_C1_cex :
    ¬ (subty (binary (terminal .pInt) (terminal .pInt))
          (binary (terminal .pAny) (terminal .pInt)) = some true ↔
        (subty (terminal .pAny) (terminal .pInt) = some true ∧
         subty (terminal .pInt) (terminal .pInt) = some true)) := by
  intro hiff
  have h1 : subty (binary (terminal .pInt) (terminal .pInt))
      (binary (terminal .pAny) (terminal .pInt)) = some true := by
    simp [subty, subtyR, resolveT]
  have h2 : subty (terminal .pAny) (terminal .pInt) = some false := by
    simp [subty, subtyR, resolveT]
  have := (hiff.mp h1).1
  rw [h2] at this
  simp at this

/-- C1 (amended): the subtype check on two function types is covariant
in BOTH positions: it checks `A1 <: A2` first (propagating an exception
or failure), then `B1 <: B2`. -/
theorem claim_C1 (a1 b1 a2 b2 : TypeExpr) :
    subty (binary a1 b1) (binary a2 b2) =
      match subty a1 a2 with
      | none => none
      | some false => some false
      | some true => subty b1 b2 := by
  simp [subty, subtyR, resolveT]

/-- C2 counterexample: `issubtype(type [Int], type [Num])` returns
`false` in the source (terminal subtyping is literal name equality, so
`Int <: Num` fails), contradicting the claimed `true`. -/
theorem claim_C2_cex :
    ¬ (issubtypeM (mtype (arr (terminal .pInt))) (mtype (arr (terminal .pNum))) =
        some true) := by
  have : issubtypeM (mtype (arr (terminal .pInt))) (mtype (arr (terminal .pNum))) =
      some false := by
    simp [issubtypeM, subty, subtyR, resolveT]
  rw [this]
  simp

/-- C2 (amended): both `issubtype(type [Int], type [Num])` and
`issubtype(type Num, type Int)` return `false` — there is no subtyping
between distinct primitive type names, so no array covariance between
`[Int]` and `[Num]` either. -/
theorem claim_C2 :
    issubtypeM (mtype (arr (terminal .pInt))) (mtype (arr (terminal .pNum))) =
      some false ∧
    issubtypeM (mtype (terminal .pNum)) (mtype (terminal .pInt)) = some false := by
  constructor
  · simp [issubtypeM, subty, subtyR, resolveT]
  · simp [issubtypeM, subty, subtyR, resolveT]

/-! ### Oracle runtime (claim C4) -/

/-- Whether a type expression is syntactically the optional form `T?`
(`ast.TypeUnary`), the test `MOracleFunction.__init__` applies. -/
def isOptionalForm : TypeExpr → Bool
  | .unary _ => true
  | _ => false

/-- The return-type widening at the end of `MOracleFunction.__init__`
(oracle.py 91-94): wrap the declared return type in a `TypeUnary`
unless it already is one. -/
def oracleWidenOut (t : TypeExpr) : TypeExpr :=
  match t with
  | .unary _ => t
  | _ => .unary t

/-- `wrapped.value["result"]` in `MOracleFunction.func`: a dict value
yields the entry (or `KeyError` when `"result"` is absent); a non-dict
`MValue` raises a subscript `TypeError`; a type or function has no
usable `.value` attribute.  Every failure is caught by the
surrounding `except` clause. -/
def oracleExtract (wrapped : MObject) : Except String MObject :=
  match wrapped with
  | .mval (.vdict m) _ =>
    match findVal "result" m with
    | some v => .ok v
    | none => .error "KeyError: result"
  | .mval _ _ => .error "TypeError: value is not subscriptable"
  | _ => .error "AttributeError: object has no attribute value"

/-- The `try`/`except` of `MOracleFunction.func` (oracle.py 146-160).
The backend consultation, the `json.loads` validity assertion and the
evaluation of the response are abstracted as parameters (each an
`Except` carrying its failure message, as `str(e)` would); any failure
makes the call return `MValue(None, str(e))`. -/
def oracleFunc (consult : Except String String)
    (parseJSON : String → Except String Unit)
    (evalResp : String → Except String MObject) : MObject :=
  match consult with
  | .error e => .mval .vnull (some e)
  | .ok code =>
    match parseJSON code with
    | .error e => .mval .vnull (some e)
    | .ok _ =>
      match evalResp code with
      | .error e => .mval .vnull (some e)
      | .ok wrapped =>
        match oracleExtract wrapped with
        | .error e => .mval .vnull (some e)
        | .ok out => out

/-- C4: after construction the oracle's declared return type is the
optional form (wrapped in `T?` unless it already was one), and every
failure during a call — backend error, unparseable response, failed
evaluation, missing result key — yields a null value annotated with the
failure message; `oracleFunc` is total (no exception escapes). -/
theorem claim_C4 (t : TypeExpr) (consult : Except String String)
    (parseJSON : String → Except String Unit)
    (evalResp : String → Except String MObject) :
    (isOptionalForm (oracleWidenOut t) = true ∧
      (isOptionalForm t = true → oracleWidenOut t = t) ∧
      (isOptionalForm t = false → oracleWidenOut t = .unary t)) ∧
    (∀ e, consult = .error e →
      oracleFunc consult parseJSON evalResp = .mval .vnull (some e)) ∧
    (∀ code e, consult = .ok code → parseJSON code = .error e →
      oracleFunc consult parseJSON evalResp = .mval .vnull (some e)) ∧
    (∀ code e, consult = .ok code → parseJSON code = .ok () →
      evalResp code = .error e →
      oracleFunc consult parseJSON evalResp = .mval .vnull (some e)) ∧
    (∀ code wrapped e, consult = .ok code → parseJSON code = .ok () →
      evalResp code = .ok wrapped → oracleExtract wrapped = .error e →
      oracleFunc consult parseJSON evalResp = .mval .vnull (some e)) := by
  refine ⟨⟨?_, ?_, ?_⟩, ?_, ?_, ?_, ?_⟩
  · cases t <;> simp [oracleWidenOut, isOptionalForm]
  · intro h; cases t <;> simp_all [oracleWidenOut, isOptionalForm]
  · intro h; cases t <;> simp_all [oracleWidenOut, isOptionalForm]
  · intro e he; subst he; simp [oracleFunc]
  · intro code e hc hp; subst hc; simp [oracleFunc, hp]
  · intro code e hc hp hv; subst hc; simp [oracleFunc, hp, hv]
  · intro code wrapped e hc hp hv hx; subst hc; simp [oracleFunc, hp, hv, hx]

/-- Witness for C4 at concrete inputs: a non-optional return type gets
wrapped, and a backend failure as well as a response without a `result`
key produce error-annotated nulls. -/
theorem claim_C4_witness :
    oracleWidenOut (terminal .pInt) = unary (terminal .pInt) ∧
    oracleFunc (.error "connection refused")
      (fun _ => .ok ()) (fun _ => .ok (mval vnull none)) =
      mval vnull (some "connection refused") ∧
    oracleFunc (.ok "{}") (fun _ => .ok ())
      (fun _ => .ok (mval (vdict []) none)) =
      mval vnull (some "KeyError: result") := by
  refine ⟨?_, ?_, ?_⟩
  · exact (claim_C4 (terminal .pInt) (.error "x") (fun _ => .ok ())
      (fun _ => .ok (mval vnull none))).1.2.2 rfl
  · exact (claim_C4 (terminal .pInt) (.error "connection refused")
      (fun _ => .ok ()) (fun _ => .ok (mval vnull none))).2.1
      "connection refused" rfl
  · exact (claim_C4 (terminal .pInt) (.ok "{}") (fun _ => .ok ())
      (fun _ => .ok (mval (vdict []) none))).2.2.2.2 "{}" (mval (vdict []) none)
      "KeyError: result" rfl rfl rfl rfl

/-! ### JSON Schema emitter (claim C7) -/

/-- A Python value as built by the schema emitter: JSON data plus
`None` (`jnull`) and floats, ordered dicts as association lists. -/
inductive JVal where
  | jnull
  | jbool (b : Bool)
  | jint (n : ℤ)
  | jnum (f : PyFloat)
  | jstr (s : String)
  | jarr (xs : List JVal)
  | jobj (fields : List (String × JVal))

/-- Python dict assignment `d[k] = v`: replaces in place, appends new
keys at the end. -/
def setKey {α : Type} (k : String) (v : α) : List (String × α) → List (String × α)
  | [] => [(k, v)]
  | (k', v') :: rest => if k' = k then (k, v) :: rest else (k', v') :: setKey k v rest

mutual
/-- `objects.unwrap` (with the default `ignore=True`): converts an
`MValue` tree to plain Python data; a nested non-`MValue` raises
`ValueError` before the `ignore` fallback is consulted. -/
def unwrapJ : MObject → Except String JVal
  | .mval .vnull _ => .ok .jnull
  | .mval (.vbool b) _ => .ok (.jbool b)
  | .mval (.vint n) _ => .ok (.jint n)
  | .mval (.vfloat f) _ => .ok (.jnum f)
  | .mval (.vstr s) _ => .ok (.jstr s)
  | .mval (.vlist xs) _ =>
    match unwrapL xs with
    | .error e => .error e
    | .ok js => .ok (.jarr js)
  | .mval (.vdict m) _ =>
    match unwrapE m with
    | .error e => .error e
    | .ok js => .ok (.jobj js)
  | _ => .error "Cannot unwrap a value"
def unwrapL : List MObject → Except String (List JVal)
  | [] => .ok []
  | x :: xs =>
    match unwrapJ x with
    | .error e => .error e
    | .ok j =>
      match unwrapL xs with
      | .error e => .error e
      | .ok js => .ok (j :: js)
def unwrapE : List (String × MObject) → Except String (List (String × JVal))
  | [] => .ok []
  | (k, x) :: m =>
    match unwrapJ x with
    | .error e => .error e
    | .ok j =>
      match unwrapE m with
      | .error e => .error e
      | .ok js => .ok ((k, j) :: js)
end

mutual
/-- The `JSONSchema` visitor (schema.py), identifier references excluded
and the `annotation` → `"description"` emission omitted (no type in the
claims carries an annotation).  `Except.error` models the raised Python
exceptions: the refusal of `type_annotation`, the `NotImplementedError`
for function arrows, and the `KeyError` when `type_unary` reads the
missing `"type"` key of an enum schema.  In `type_unary`, the source
assigns the return value of `list.append` — which is `None` — back to
`obj["type"]`, and its second condition tests `"null" not in obj`
against the dict's keys. -/
def emitSchema : TypeExpr → Except String JVal
  | .terminal p =>
    match p with
    | .pInt => .ok (.jobj [("type", .jstr "integer")])
    | .pNum => .ok (.jobj [("type", .jstr "number")])
    | .pStr => .ok (.jobj [("type", .jstr "string")])
    | .pBool => .ok (.jobj [("type", .jstr "boolean")])
    | .pNull => .ok (.jobj [("type", .jstr "null")])
    | .pAny => .ok (.jobj [("type", .jarr [.jstr "array", .jstr "boolean",
        .jstr "number", .jstr "null", .jstr "object", .jstr "string"])])
    | .pType => .ok (.jobj [("type", .jnull)])
  | .grouping t => emitSchema t
  | .tannot _ _ => .error "type_annotation should not be called!"
  | .binary _ _ => .error "JSON Schemas for function types are not implemented yet."
  | .unary t =>
    match emitSchema t with
    | .error e => .error e
    | .ok (.jobj fields) =>
      match findVal "type" fields with
      | none => .error "KeyError: type"
      | some t0 =>
        let fields1 := match t0 with
          | .jstr s => setKey "type" (.jarr [.jstr s, .jstr "null"]) fields
          | _ => fields
        match findVal "type" fields1 with
        | none => .error "KeyError: type"
        | some t1 =>
          match t1 with
          | .jarr _ =>
            if fields1.any (fun p => p.1 == "null") then .ok (.jobj fields1)
            else .ok (.jobj (setKey "type" .jnull fields1))
          | _ => .ok (.jobj fields1)
    | .ok _ => .error "TypeError: schema is not a dict"
  | .tenum vs =>
    match unwrapL vs with
    | .error e => .error e
    | .ok xs => .ok (.jobj [("enum", .jarr xs)])
  | .arr t =>
    match emitSchema t with
    | .error e => .error e
    | .ok inner => .ok (.jobj [("type", .jstr "array"), ("items", inner)])
  | .tmap fs req =>
    match emitFields fs req with
    | .error e => .error e
    | .ok (reqs, props) =>
      .ok (.jobj [("type", .jstr "object"),
        ("required", .jarr (reqs.map (fun k => .jstr k))),
        ("properties", .jobj props)])
/-- The field loop of `type_map`: required keys collected in order,
each property schema emitted recursively. -/
def emitFields : List (String × TypeExpr) → List String →
    Except String (List String × List (String × JVal))
  | [], _ => .ok ([], [])
  | (k, t) :: rest, req =>
    match emitSchema t with
    | .error e => .error e
    | .ok s =>
      match emitFields rest req with
      | .error e => .error e
      | .ok (rs, ps) =>
        .ok ((if req.contains k then k :: rs else rs), (k, s) :: ps)
end

/-- C7 (code bug): the emitter maps EVERY optional type to
`{"type": null}` — the source assigns `obj["type"].append("null")`,
i.e. the `None` returned by `list.append`, back into the schema — so
`Int?` does not get `["integer", "null"]`; on the claim's example map
the `required` list is `["name"]` as claimed but `age` is typed `null`. -/
theorem claim_C7 :
    emitSchema (unary (terminal .pInt)) = .ok (.jobj [("type", .jnull)]) ∧
    emitSchema (tmap [("name", terminal .pStr), ("age", unary (terminal .pInt))]
        ["name"]) =
      .ok (.jobj [("type", .jstr "object"),
        ("required", .jarr [.jstr "name"]),
        ("properties", .jobj [("name", .jobj [("type", .jstr "string")]),
          ("age", .jobj [("type", .jnull)])])]) ∧
    .jnull ≠ JVal.jarr [.jstr "integer", .jstr "null"] := by
  refine ⟨by rfl, by rfl, by simp⟩

/-! ### Integer division (claim C5)

A model of CPython's float true division of two ints, phrased over
`ℕ`/`ℤ` arithmetic so that concrete instances reduce in the kernel. -/

/-- Number of binary digits of `n` (`0` for `0`); the first argument is
fuel (any value `≥ log₂ n + 1`, the wrapper passes `n`), making the
recursion structural. -/
def bitsAux : ℕ → ℕ → ℕ
  | 0, _ => 0
  | fuel + 1, n => if n = 0 then 0 else bitsAux fuel (n / 2) + 1

/-- Number of binary digits of `n`. -/
def bits (n : ℕ) : ℕ := bitsAux n n

/-- Is `n / d ≥ 2^e` (for `n, d > 0`)? -/
def ratGePow2 (n d : ℕ) (e : ℤ) : Bool :=
  if 0 ≤ e then decide (2 ^ e.toNat * d ≤ n) else decide (d ≤ 2 ^ (-e).toNat * n)

/-- `⌊log₂ (n / d)⌋` for `n, d > 0`: the digit-count estimate is off by
at most one, fixed by a single comparison. -/
def ratFloorLog2 (n d : ℕ) : ℤ :=
  let e0 : ℤ := (bits n : ℤ) - (bits d : ℤ)
  if ratGePow2 n d e0 then e0 else e0 - 1

/-- A finite nonnegative binary64 value `m · 2^(-k)` as produced by the
rounding model (not normalized; the sign is carried separately by the
caller). -/
structure DyadicF where
  m : ℕ
  k : ℤ

/-- Round the positive rational `n / d` to the nearest IEEE-754
binary64 value (ties to even), `none` on overflow; subnormals round at
the fixed scale `2^(-1074)`. -/
def roundPosToDouble (n d : ℕ) : Option DyadicF :=
  let e := ratFloorLog2 n d
  let k : ℤ := if e < -1022 then 1074 else 52 - e
  -- scaled = (n/d) · 2^k as the fraction n2 / d2
  let n2 : ℕ := if 0 ≤ k then n * 2 ^ k.toNat else n
  let d2 : ℕ := if 0 ≤ k then d else d * 2 ^ (-k).toNat
  let fl : ℕ := n2 / d2
  let rem : ℕ := n2 % d2
  let m : ℕ :=
    if d2 < 2 * rem then fl + 1
    else if 2 * rem < d2 then fl
    else if fl % 2 = 0 then fl else fl + 1
  -- overflow: m · 2^(-k) ≥ 2^1024
  let overflow : Bool :=
    if 0 ≤ k then decide (2 ^ 1024 * 2 ^ k.toNat ≤ m)
    else decide (2 ^ 1024 ≤ m * 2 ^ (-k).toNat)
  if overflow then none else some ⟨m, k⟩

/-- Python `int(x)` on the nonnegative float `m · 2^(-k)`: truncation
toward zero (= floor on nonnegative values). -/
def truncDyadic (f : DyadicF) : ℕ :=
  if 0 ≤ f.k then f.m / 2 ^ f.k.toNat else f.m * 2 ^ (-f.k).toNat

/-- CPython true division `a / b` of two nonzero-denominator ints
followed by `int(...)`: the correctly rounded double of the exact
quotient, truncated toward zero; `OverflowError` when the quotient
exceeds the float range.  The sign is handled by symmetry of
round-to-nearest-even. -/
def pyIntOfTrueDiv (a b : ℤ) : Except String ℤ :=
  let n : ℕ := a.natAbs
  let d : ℕ := b.natAbs
  if n = 0 then .ok 0
  else
    match roundPosToDouble n d with
    | none => .error "OverflowError: integer division result too large for a float"
    | some f =>
      let t : ℤ := (truncDyadic f : ℤ)
      .ok (if (0 ≤ a) = (0 ≤ b) then t else -t)

/-- The integer-integer `/` arm of `Interpreter.binary`
(runtime.py 218-221): `int(lvalue / rvalue)` guarded by a zero check.
Division by zero raises a runtime error as the claim says, but the
result travels through a float: `int(a / b)`, not integer division. -/
def binDivInt (a b : ℤ) : Except String ℤ :=
  if b = 0 then .error "Division by zero."
  else pyIntOfTrueDiv a b

set_option maxRecDepth 100000 in
/-- C5 (code bug): at `a = 10^18 + 1, b = 1` the float intermediate
rounds the quotient down to `10^18`, so the result is NOT the exact
truncated quotient the claim demands; on small operands (`±7 / 2`) the
code does truncate toward zero, and division by zero errors as
claimed. -/
theorem claim_C5 :
    binDivInt (10 ^ 18 + 1) 1 = .ok (10 ^ 18) ∧
    (10 ^ 18 : ℤ) ≠ 10 ^ 18 + 1 ∧
    binDivInt 7 2 = .ok 3 ∧
    binDivInt (-7) 2 = .ok (-3) ∧
    binDivInt 5 0 = .error "Division by zero." := by
  refine ⟨by rfl, by omega, by rfl, by rfl, by rfl⟩

/-! ### Function calls and partial application (claim C6) -/

/-- The fields of `objects.MFunction` that calling consults: the
parameter name list, the precomputed input types, the stored arrow
chain (`definition.types`), the output type, and the body (`func`,
whose failure arm models a propagated Python exception). -/
structure MFunc where
  params : List String
  intypes : List TypeExpr
  types : TypeExpr
  outtype : TypeExpr
  body : List MObject → Except String MObject

/-- The outcome of `MFunction.call`: a returned value, a new function
value (partial application), a runtime error raised via `self.error`,
or a propagated Python exception. -/
inductive CallResult where
  | val (v : MObject)
  | fn (g : MFunc)
  | rtErr (msg : String)
  | exn (msg : String)

/-- The input-type walk of `MFunction.__init__` (objects.py 118-128):
collect `n` chain lefts as the input types; what remains is the output
type.  `none` models the `AttributeError` on a too-short chain. -/
def buildTypes : ℕ → TypeExpr → Option (List TypeExpr × TypeExpr)
  | 0, t => some ([], t)
  | n + 1, .binary l r =>
    match buildTypes n r with
    | some (ins, out) => some (l :: ins, out)
    | none => none
  | _ + 1, _ => none

/-- `types.right` (`AttributeError` on a non-`TypeBinary`). -/
def typesRight : TypeExpr → Option TypeExpr
  | .binary _ r => some r
  | _ => none

/-- `types.right` applied `n` times. -/
def typesRightN : ℕ → TypeExpr → Option TypeExpr
  | 0, t => some t
  | n + 1, t =>
    match typesRight t with
    | some r => typesRightN n r
    | none => none

/-- `MFunction.partial` (objects.py 188-198): deep-copy the function,
override the body to close over the supplied prefix, and cut the
parameter and input-type lists down to suffixes.  The chain walk takes
`definition.types.right` once and then `len(args) - 1` further `.right`
steps — i.e. ONE step even when `args` is empty. -/
def MFunc.partApp (f : MFunc) (args : List MObject) : Option MFunc :=
  match typesRightN (1 + (args.length - 1)) f.types with
  | none => none
  | some ts =>
    some { params := f.params.drop args.length,
           intypes := f.intypes.drop args.length,
           types := ts,
           outtype := f.outtype,
           body := fun newArgs => f.body (args ++ newArgs) }

/-- The argument loop of `MFunction.call`: `zip` truncates, a failed
check raises the argument type error, an exception from `checktype`
propagates. -/
def checkArgs : List MObject → List TypeExpr → Option Bool
  | _, [] => some true
  | [], _ :: _ => some true
  | a :: rest, t :: ts =>
    match checkty a t with
    | none => none
    | some false => some false
    | some true => checkArgs rest ts

/-- `MFunction.call` (objects.py 162-186): with fewer arguments than
parameters, return a partial application — WITHOUT type-checking the
supplied prefix; otherwise check arguments, run the body, check the
result.  The error message strings (which embed printed values in the
source) are abbreviated. -/
def MFunc.call (f : MFunc) (args : List MObject) : CallResult :=
  if args.length < f.params.length then
    match f.partApp args with
    | some g => .fn g
    | none => .exn "AttributeError: right"
  else
    match checkArgs args f.intypes with
    | none => .exn "checktype raised"
    | some false => .rtErr "Wrong type of function argument"
    | some true =>
      match f.body args with
      | .error e => .exn e
      | .ok value =>
        match checkty value f.outtype with
        | none => .exn "checktype raised"
        | some false => .rtErr "Wrong type of function output"
        | some true => .val value

/-- Extract the arrow chain of the function a call returned (used to
state the counterexample without comparing function bodies). -/
def callChain (f : MFunc) (args : List MObject) : Option TypeExpr :=
  match f.call args with
  | .fn g => some g.types
  | _ => none

/-- A concrete two-parameter function `fun(x: Int, y: Int) -> Int` used
as the counterexample input. -/
def cexFun : MFunc :=
  { params := ["x", "y"],
    intypes := [terminal .pInt, terminal .pInt],
    types := binary (terminal .pInt) (binary (terminal .pInt) (terminal .pInt)),
    outtype := terminal .pInt,
    body := fun _ => .ok (mval vnull none) }

/-- C6 counterexample: calling the two-parameter function with ZERO
arguments returns a partial application whose parameter and input-type
lists are the full originals but whose chain has lost its first arrow
(`Int -> Int` instead of `Int -> Int -> Int`) — not the "corresponding
suffix" the claim requires for k = 0. -/
theorem claim_C6_cex :
    callChain cexFun [] = some (binary (terminal .pInt) (terminal .pInt)) ∧
    (cexFun.partApp []).map MFunc.params = some ["x", "y"] ∧
    binary (terminal .pInt) (terminal .pInt) ≠ cexFun.types := by
  refine ⟨by rfl, by rfl, ?_⟩
  intro h
  simp [cexFun] at h

theorem buildTypes_typesRightN {n : ℕ} {t : TypeExpr} {ins : List TypeExpr}
    {out : TypeExpr} (h : buildTypes n t = some (ins, out)) :
    ∀ m ≤ n, ∃ r, typesRightN m t = some r ∧
      buildTypes (n - m) r = some (ins.drop m, out) := by
  induction n generalizing t ins out with
  | zero =>
    intro m hm
    interval_cases m
    exact ⟨t, rfl, by simpa using h⟩
  | succ n ih =>
    intro m hm
    match t with
    | .binary l r =>
      simp only [buildTypes] at h
      cases hb : buildTypes n r with
      | none => rw [hb] at h; cases h
      | some p =>
        obtain ⟨ins', out'⟩ := p
        rw [hb] at h
        cases h
        match m with
        | 0 =>
          refine ⟨.binary l r, by simp [typesRightN], ?_⟩
          simp only [Nat.sub_zero, List.drop_zero]
          simp [buildTypes, hb]
        | m + 1 =>
          obtain ⟨r', hr', hbr'⟩ := ih hb m (by omega)
          refine ⟨r', ?_, ?_⟩
          · simp only [typesRightN, typesRight]
            exact hr'
          · simpa using hbr'
    | .terminal p => simp [buildTypes] at h
    | .unary t => simp [buildTypes] at h
    | .arr t => simp [buildTypes] at h
    | .tmap fs req => simp [buildTypes] at h
    | .tenum vs => simp [buildTypes] at h
    | .grouping t => simp [buildTypes] at h
    | .tannot s t => simp [buildTypes] at h

theorem checkArgs_append (args rest : List MObject) (ts : List TypeExpr) :
    checkArgs (args ++ rest) ts =
      match checkArgs args (ts.take args.length) with
      | none => none
      | some false => some false
      | some true => checkArgs rest (ts.drop args.length) := by
  induction args generalizing ts with
  | nil => simp [checkArgs]
  | cons a as ih =>
    match ts with
    | [] => simp [checkArgs]
    | t :: ts' =>
      simp only [List.cons_append, checkArgs, List.length_cons, List.take_succ_cons,
        List.drop_succ_cons]
      cases checkty a t with
      | none => rfl
      | some b => cases b with
        | false => rfl
        | true => exact ih ts'

set_option maxHeartbeats 1000000 in
/-- C6 (amended): calling an n-parameter function with k < n arguments
returns a partial application (never an error, never a body run); its
parameter list, input-type list and output type are the length-(n−k)
suffixes (resp. unchanged); for 1 ≤ k its arrow chain is the k-th
right-suffix of the original (for k = 0 the source erroneously drops
one arrow — see the counterexample); and, provided the supplied prefix
satisfies its declared parameter types (a check the partial-application
path skips), applying the result to the remaining n−k arguments behaves
exactly as the original applied to all n arguments at once. -/
theorem claim_C6 (f : MFunc) (args rest : List MObject)
    (hinv : buildTypes f.params.length f.types = some (f.intypes, f.outtype))
    (hk : args.length < f.params.length) :
    (∃ g, f.partApp args = some g ∧ f.call args = .fn g) ∧
    (∀ g, f.partApp args = some g →
      g.params = f.params.drop args.length ∧
      g.intypes = f.intypes.drop args.length ∧
      g.outtype = f.outtype ∧
      (1 ≤ args.length → typesRightN args.length f.types = some g.types)) ∧
    (rest.length = f.params.length - args.length →
      checkArgs args (f.intypes.take args.length) = some true →
      ∀ g, f.partApp args = some g → g.call rest = f.call (args ++ rest)) := by
  have hsteps : 1 + (args.length - 1) ≤ f.params.length := by omega
  obtain ⟨r, hr, _⟩ := buildTypes_typesRightN hinv (1 + (args.length - 1)) hsteps
  have hpartApp : f.partApp args = some
      { params := f.params.drop args.length,
        intypes := f.intypes.drop args.length,
        types := r,
        outtype := f.outtype,
        body := fun newArgs => f.body (args ++ newArgs) } := by
    simp only [MFunc.partApp, hr]
  have hlenIn : f.intypes.length = f.params.length := by
    have : ∀ n t ins (out : TypeExpr), buildTypes n t = some (ins, out) →
        ins.length = n := by
      intro n
      induction n with
      | zero => intro t ins out h; simp [buildTypes] at h; simp [h.1]
      | succ n ihn =>
        intro t ins out h
        match t, h with
        | .binary l rr, h =>
          simp only [buildTypes] at h
          cases hb : buildTypes n rr with
          | none => rw [hb] at h; cases h
          | some p =>
            rw [hb] at h
            cases h
            simpa using ihn rr p.1 p.2 hb
    exact this _ _ _ _ hinv
  refine ⟨⟨_, hpartApp, ?_⟩, ?_, ?_⟩
  · simp only [MFunc.call, if_pos hk, hpartApp]
  · intro g hg
    rw [hpartApp] at hg
    cases hg
    refine ⟨rfl, rfl, rfl, fun h1 => ?_⟩
    have : 1 + (args.length - 1) = args.length := by omega
    rw [this] at hr
    exact hr
  · intro hrest hpre g hg
    rw [hpartApp] at hg
    cases hg
    have hlen1 : ¬ (rest.length < (f.params.drop args.length).length) := by
      simp [List.length_drop]; omega
    have hlen2 : ¬ ((args ++ rest).length < f.params.length) := by
      simp [List.length_append]; omega
    simp only [MFunc.call, if_neg hlen1, if_neg hlen2, checkArgs_append, hpre]

/-- Witness for C6 at a concrete input: the two-parameter `Int` function
applied to one well-typed argument yields a partial application with
parameter list `["y"]`, chain `Int -> Int`, and applying it to a second
argument gives the same result as a direct two-argument call. -/
theorem claim_C6_witness :
    (∃ g, cexFun.partApp [mval (vint 1) none] = some g ∧
      cexFun.call [mval (vint 1) none] = .fn g) ∧
    (∀ g, cexFun.partApp [mval (vint 1) none] = some g →
      g.params = ["y"] ∧
      typesRightN 1 cexFun.types = some g.types ∧
      g.call [mval (vint 2) none] =
        cexFun.call [mval (vint 1) none, mval (vint 2) none]) := by
  have h := claim_C6 cexFun [mval (vint 1) none] [mval (vint 2) none]
    (by rfl) (by decide)
  refine ⟨h.1, fun g hg => ⟨?_, ?_, ?_⟩⟩
  · have := (h.2.1 g hg).1
    simpa [cexFun] using this
  · exact (h.2.1 g hg).2.2.2 (by decide)
  · refine h.2.2 (by decide) ?_ g hg
    simp [checkArgs, cexFun, checkty]

/-! ### List type inference (claim C8) -/

/-- A null item (the claim's scan ignores nulls and notes their
presence). -/
def isNullObj : MObject → Bool
  | .mval .vnull _ => true
  | _ => false

/-- Modelled from the claim's words: the running most-general-type scan.
The first non-null item's type becomes the running type G; each further
non-null item keeps G if its type is a subtype of G, replaces G if G is
a subtype of its type, and otherwise forces G to `Any`.  The outer
`none` models an exception from a nested `typeof` or subtype check. -/
def specScanG : List MObject → Option TypeExpr → Option (Option TypeExpr)
  | [], g => some g
  | item :: rest, g =>
    if isNullObj item then specScanG rest g
    else
      match typeofE item with
      | none => none
      | some t =>
        match g with
        | none => specScanG rest (some t)
        | some gt =>
          match subty t gt with
          | none => none
          | some true => specScanG rest (some gt)
          | some false =>
            match subty gt t with
            | none => none
            | some true => specScanG rest (some t)
            | some false => specScanG rest (some (terminal .pAny))

/-- Modelled from the claim's words: the element type `T` of `typeof`
on a list value — `Any` for an empty list, otherwise the scan result,
wrapped in `T?` when nulls are present alongside a non-`Any` G.  The
claim does not cover a non-empty all-null list (no first non-null item
exists); this definition returns `none` there and the theorem's
hypothesis excludes the case. -/
def specElemType (items : List MObject) : Option TypeExpr :=
  match items with
  | [] => some (terminal .pAny)
  | _ :: _ =>
    match specScanG items none with
    | none => none
    | some none => none
    | some (some gt) =>
      match gt with
      | .terminal .pAny => some (.terminal .pAny)
      | gt' => some (if items.any (fun x => isNullObj x) then unary gt' else gt')

theorem subty_any (t : TypeExpr) : subty t (terminal .pAny) = some true := by
  rw [subty]
  have : resolveT (terminal .pAny) = terminal .pAny := by simp [resolveT]
  rw [this]
  cases resolveT t <;> simp [subtyR]

theorem typeofE_not_null_not_any (x : MObject) :
    ((typeofE x = some (terminal .pNull)) ↔ isNullObj x = true) ∧
    typeofE x ≠ some (terminal .pAny) := by
  match x with
  | .mval .vnull a => simp [typeofE, isNullObj]
  | .mval (.vbool b) a => simp [typeofE, isNullObj]
  | .mval (.vint n) a => simp [typeofE, isNullObj]
  | .mval (.vfloat f) a => simp [typeofE, isNullObj]
  | .mval (.vstr s) a => simp [typeofE, isNullObj]
  | .mval (.vlist []) a => simp [typeofE, isNullObj]
  | .mval (.vlist (x :: rest)) a =>
    simp only [typeofE, isNullObj]
    cases hs : scanItems (x :: rest) none false with
    | none => simp
    | some res =>
      obtain ⟨g, nb, anyf⟩ := res
      cases anyf <;> cases g <;> simp <;> split <;> simp
  | .mval (.vdict m) a =>
    simp only [typeofE, isNullObj]
    cases hd : dictTypes m <;> simp
  | .mtype t => simp [typeofE, isNullObj]
  | .mfun i aT rT => simp [typeofE, isNullObj]

theorem specScanG_any (xs : List MObject)
    (hdef : ∀ x ∈ xs, typeofE x ≠ none) :
    specScanG xs (some (terminal .pAny)) = some (some (terminal .pAny)) := by
  induction xs with
  | nil => simp [specScanG]
  | cons x rest ih =>
    simp only [specScanG]
    split
    · exact ih (fun y hy => hdef y (by simp [hy]))
    · cases ht : typeofE x with
      | none => exact absurd ht (hdef x (by simp))
      | some t =>
        simp only [subty_any]
        exact ih (fun y hy => hdef y (by simp [hy]))

theorem scanItems_cons_nonnull (x : MObject) (rest : List MObject)
    (g : Option TypeExpr) (nb : Bool) (t : TypeExpr)
    (ht : typeofE x = some t) (hTnn : t ≠ terminal .pNull) :
    scanItems (x :: rest) g nb =
      (match g with
       | none => scanItems rest (some t) nb
       | some gt =>
         match subty t gt with
         | none => none
         | some true => scanItems rest (some gt) nb
         | some false =>
           match subty gt t with
           | none => none
           | some true => scanItems rest (some t) nb
           | some false => some (g, nb, true)) := by
  rw [scanItems, ht]
  match t, hTnn with
  | .terminal .pBool, _ => rfl
  | .terminal .pInt, _ => rfl
  | .terminal .pNum, _ => rfl
  | .terminal .pStr, _ => rfl
  | .terminal .pAny, _ => rfl
  | .terminal .pType, _ => rfl
  | .unary u, _ => rfl
  | .binary l r, _ => rfl
  | .arr u, _ => rfl
  | .tmap fs req, _ => rfl
  | .tenum vs, _ => rfl
  | .grouping u, _ => rfl
  | .tannot s u, _ => rfl

theorem specScanG_cons_nonnull (x : MObject) (rest : List MObject)
    (g : Option TypeExpr) (t : TypeExpr)
    (ht : typeofE x = some t) (hnull : isNullObj x = false) :
    specScanG (x :: rest) g =
      (match g with
       | none => specScanG rest (some t)
       | some gt =>
         match subty t gt with
         | none => none
         | some true => specScanG rest (some gt)
         | some false =>
           match subty gt t with
           | none => none
           | some true => specScanG rest (some t)
           | some false => specScanG rest (some (terminal .pAny))) := by
  rw [specScanG, ht, hnull]
  rfl

/-- The code's scan (`scanItems`, with its `anytype` `break`) agrees
with the claim's scan (`specScanG`, which keeps going once G is `Any`). -/
theorem scanItems_spec (xs : List MObject) :
    ∀ (g : Option TypeExpr) (nb : Bool),
    (∀ x ∈ xs, typeofE x ≠ none) →
    (scanItems xs g nb = none ∧ specScanG xs g = none) ∨
    (∃ g' nb', scanItems xs g nb = some (g', nb', false) ∧
      specScanG xs g = some g' ∧
      nb' = (nb || xs.any (fun x => isNullObj x)) ∧
      ((∀ gt, g = some gt → gt ≠ terminal .pAny) →
        ∀ gt, g' = some gt → gt ≠ terminal .pAny)) ∨
    (∃ g' nb', scanItems xs g nb = some (g', nb', true) ∧
      specScanG xs g = some (some (terminal .pAny))) := by
  induction xs with
  | nil =>
    intro g nb _
    exact Or.inr (Or.inl ⟨g, nb, by simp [scanItems], by simp [specScanG],
      by simp, fun h => h⟩)
  | cons x rest ih =>
    intro g nb hdef
    have hdefRest : ∀ y ∈ rest, typeofE y ≠ none :=
      fun y hy => hdef y (by simp [hy])
    cases ht : typeofE x with
    | none => exact absurd ht (hdef x (by simp))
    | some t =>
      by_cases hnull : isNullObj x = true
      · have hTnull : t = terminal .pNull := by
          have := ((typeofE_not_null_not_any x).1).mpr hnull
          rw [ht] at this
          exact (Option.some.injEq _ _).mp this.symm |>.symm
        subst hTnull
        have hcode : scanItems (x :: rest) g nb = scanItems rest g true := by
          simp only [scanItems, ht]
        have hspec : specScanG (x :: rest) g = specScanG rest g := by
          simp only [specScanG, hnull, if_pos]
        rcases ih g true hdefRest with ⟨h1, h2⟩ | ⟨g', nb', h1, h2, h3, h4⟩ |
            ⟨g', nb', h1, h2⟩
        · exact Or.inl ⟨by rw [hcode, h1], by rw [hspec, h2]⟩
        · refine Or.inr (Or.inl ⟨g', nb', by rw [hcode, h1], by rw [hspec, h2], ?_, h4⟩)
          simp [h3, hnull]
        · exact Or.inr (Or.inr ⟨g', nb', by rw [hcode, h1], by rw [hspec, h2]⟩)
      · have hnull' : isNullObj x = false := by simpa using hnull
        have hTnn : t ≠ terminal .pNull := by
          intro he
          rw [he] at ht
          exact hnull (((typeofE_not_null_not_any x).1).mp ht)
        have hTna : t ≠ terminal .pAny := by
          intro he
          rw [he] at ht
          exact (typeofE_not_null_not_any x).2 ht
        rw [scanItems_cons_nonnull x rest g nb t ht hTnn,
          specScanG_cons_nonnull x rest g t ht hnull']
        match g with
        | none =>
          dsimp only
          rcases ih (some t) nb hdefRest with ⟨h1, h2⟩ | ⟨g', nb', h1, h2, h3, h4⟩ |
              ⟨g', nb', h1, h2⟩
          · exact Or.inl ⟨h1, h2⟩
          · refine Or.inr (Or.inl ⟨g', nb', h1, h2, by simp [h3, hnull'], ?_⟩)
            intro _ gt hgt
            refine h4 ?_ gt hgt
            intro gt' hgt'
            cases hgt'
            exact hTna
          · exact Or.inr (Or.inr ⟨g', nb', h1, h2⟩)
        | some gt =>
          dsimp only
          cases h1 : subty t gt with
          | none => exact Or.inl ⟨rfl, rfl⟩
          | some b1 =>
            cases b1 with
            | true =>
              dsimp only
              rcases ih (some gt) nb hdefRest with ⟨h1', h2'⟩ |
                  ⟨g', nb', h1', h2', h3', h4'⟩ | ⟨g', nb', h1', h2'⟩
              · exact Or.inl ⟨h1', h2'⟩
              · exact Or.inr (Or.inl ⟨g', nb', h1', h2', by simp [h3', hnull'], h4'⟩)
              · exact Or.inr (Or.inr ⟨g', nb', h1', h2'⟩)
            | false =>
              dsimp only
              cases h2 : subty gt t with
              | none => exact Or.inl ⟨rfl, rfl⟩
              | some b2 =>
                cases b2 with
                | true =>
                  dsimp only
                  rcases ih (some t) nb hdefRest with ⟨h1', h2'⟩ |
                      ⟨g', nb', h1', h2', h3', h4'⟩ | ⟨g', nb', h1', h2'⟩
                  · exact Or.inl ⟨h1', h2'⟩
                  · refine Or.inr (Or.inl ⟨g', nb', h1', h2',
                      by simp [h3', hnull'], ?_⟩)
                    intro _ gt' hgt'
                    refine h4' ?_ gt' hgt'
                    intro gt'' hgt''
                    cases hgt''
                    exact hTna
                  · exact Or.inr (Or.inr ⟨g', nb', h1', h2'⟩)
                | false =>
                  dsimp only
                  refine Or.inr (Or.inr ⟨some gt, nb, rfl, ?_⟩)
                  exact specScanG_any rest hdefRest

theorem specScanG_ne_none (xs : List MObject) :
    ∀ (g : Option TypeExpr) (g'' : Option TypeExpr),
    specScanG xs g = some g'' →
    (g ≠ none ∨ ∃ x ∈ xs, isNullObj x = false) → g'' ≠ none := by
  induction xs with
  | nil =>
    intro g g'' h hs
    simp only [specScanG] at h
    cases h
    rcases hs with h | ⟨x, hx, _⟩
    · exact h
    · simp at hx
  | cons x rest ih =>
    intro g g'' h hs
    simp only [specScanG] at h
    by_cases hx : isNullObj x = true
    · rw [if_pos hx] at h
      refine ih g g'' h ?_
      rcases hs with hg | ⟨y, hy, hny⟩
      · exact Or.inl hg
      · rcases List.mem_cons.mp hy with rfl | hy'
        · rw [hx] at hny; cases hny
        · exact Or.inr ⟨y, hy', hny⟩
    · rw [if_neg hx] at h
      cases ht : typeofE x with
      | none => rw [ht] at h; cases h
      | some t =>
        rw [ht] at h
        cases g with
        | none => exact ih (some t) g'' h (Or.inl (by simp))
        | some gt =>
          dsimp only at h
          cases h1 : subty t gt with
          | none => rw [h1] at h; cases h
          | some b1 =>
            rw [h1] at h
            cases b1 with
            | true => exact ih (some gt) g'' h (Or.inl (by simp))
            | false =>
              dsimp only at h
              cases h2 : subty gt t with
              | none => rw [h2] at h; cases h
              | some b2 =>
                rw [h2] at h
                cases b2 with
                | true => exact ih (some t) g'' h (Or.inl (by simp))
                | false => exact ih (some (terminal .pAny)) g'' h (Or.inl (by simp))

theorem specElemType_cons_someG (x : MObject) (rest : List MObject) (gt : TypeExpr)
    (h1 : specScanG (x :: rest) none = some (some gt))
    (hna : gt ≠ terminal .pAny) :
    specElemType (x :: rest) =
      some (if (x :: rest).any (fun y => isNullObj y) then unary gt else gt) := by
  simp only [specElemType, h1]

/-- C8: `typeof` on a list value is `[T]` with `T` computed exactly by
the claim's most-general-type scan.  Hypotheses: every item's own
`typeof` succeeds (the code stops scanning items once G is forced to
`Any`, the claim's description does not), and the list is empty or has
a non-null item (a non-empty all-null list has no "first non-null
item", so the claim does not determine it). -/
theorem claim_C8 (items : List MObject) (a : Option String)
    (hdef : ∀ x ∈ items, typeofE x ≠ none)
    (hnn : items = [] ∨ ∃ x ∈ items, isNullObj x = false) :
    typeofE (mval (vlist items) a) =
      (specElemType items).map TypeExpr.arr := by
  match items with
  | [] => simp [typeofE, specElemType]
  | x :: rest =>
    have hnn' : ∃ y ∈ x :: rest, isNullObj y = false := by
      rcases hnn with h | h
      · cases h
      · exact h
    rcases scanItems_spec (x :: rest) none false hdef with ⟨h1, h2⟩ |
        ⟨g', nb', h1, h2, h3, h4⟩ | ⟨g', nb', h1, h2⟩
    · simp only [typeofE, h1, specElemType, h2]
      rfl
    · cases g' with
      | none =>
        exact absurd rfl (specScanG_ne_none (x :: rest) none none h2 (Or.inr hnn'))
      | some gt =>
        have hna : gt ≠ terminal .pAny := h4 (by intro gt' h; cases h) gt rfl
        rw [specElemType_cons_someG x rest gt h2 hna]
        simp only [typeofE, h1]
        rw [h3]
        simp
    · simp only [typeofE, h1]
      simp only [specElemType, h2]
      rfl

/-- Witness for C8 at a concrete input: `typeof [1, null, 2]`, whose
scan keeps G = `Int` and sees a null, giving `[Int?]`. -/
theorem claim_C8_witness :
    typeofE (mval (vlist [mval (vint 1) none, mval vnull none,
        mval (vint 2) none]) none) =
      (specElemType [mval (vint 1) none, mval vnull none,
        mval (vint 2) none]).map TypeExpr.arr ∧
    typeofE (mval (vlist [mval (vint 1) none, mval vnull none,
        mval (vint 2) none]) none) = some (arr (unary (terminal .pInt))) := by
  constructor
  · refine claim_C8 _ none ?_ ?_
    · intro x hx
      simp only [List.mem_cons, List.not_mem_nil, or_false] at hx
      rcases hx with rfl | rfl | rfl <;> simp [typeofE]
    · exact Or.inr ⟨mval (vint 1) none, by simp, by simp [isNullObj]⟩
  · simp [typeofE, scanItems, subty, subtyR, resolveT]

/-! ### Reflexivity of `compare` and of the subtype check -/

theorem findVal_mem {α : Type} {k : String} {m : List (String × α)} {v : α}
    (h : findVal k m = some v) : (k, v) ∈ m := by
  induction m with
  | nil => simp [findVal] at h
  | cons p rest ih =>
    obtain ⟨k', v'⟩ := p
    simp only [findVal] at h
    split at h
    · cases h
      simp_all
    · simp [ih h]

theorem findVal_of_nodup_mem {α : Type} {m : List (String × α)} {k : String} {v : α}
    (hnd : nodupKeys m = true) (hm : (k, v) ∈ m) : findVal k m = some v := by
  induction m with
  | nil => cases hm
  | cons p rest ih =>
    obtain ⟨k', v'⟩ := p
    simp only [nodupKeys, Bool.and_eq_true, Bool.not_eq_true'] at hnd
    rcases List.mem_cons.mp hm with h | h
    · cases h
      simp [findVal]
    · have hk : k' ≠ k := by
        intro he
        subst he
        have : rest.any (fun p => p.1 == k') = true :=
          List.any_eq_true.mpr ⟨(k', v), h, by simp⟩
        rw [this] at hnd
        cases hnd.1
      simp only [findVal, if_neg hk]
      exact ih hnd.2 h

theorem selfEqSafeL_mem {xs : List MObject} {x : MObject}
    (h : selfEqSafeL xs = true) (hx : x ∈ xs) : selfEqSafeO x = true := by
  induction xs with
  | nil => cases hx
  | cons y rest ih =>
    simp only [selfEqSafeL, Bool.and_eq_true] at h
    rcases List.mem_cons.mp hx with rfl | hx'
    · exact h.1
    · exact ih h.2 hx'

theorem selfEqSafeE_mem {m : List (String × MObject)} {k : String} {x : MObject}
    (h : selfEqSafeE m = true) (hx : (k, x) ∈ m) : selfEqSafeO x = true := by
  induction m with
  | nil => cases hx
  | cons p rest ih =>
    obtain ⟨k', v'⟩ := p
    simp only [selfEqSafeE, Bool.and_eq_true] at h
    rcases List.mem_cons.mp hx with he | hx'
    · cases he; exact h.1
    · exact ih h.2 hx'

theorem reflSafeF_mem {fs : List (String × TypeExpr)} {k : String} {t : TypeExpr}
    (h : reflSafeF fs = true) (ht : (k, t) ∈ fs) : reflSafeT t = true := by
  induction fs with
  | nil => cases ht
  | cons p rest ih =>
    obtain ⟨k', t'⟩ := p
    simp only [reflSafeF, Bool.and_eq_true] at h
    rcases List.mem_cons.mp ht with he | ht'
    · cases he; exact h.1
    · exact ih h.2 ht'

theorem pairwiseDefined_mem {vs : List MObject} {v w : MObject}
    (h : pairwiseDefined vs = true) (hv : v ∈ vs) (hw : w ∈ vs) :
    (compare v w).isSome = true := by
  simp only [pairwiseDefined, List.all_eq_true] at h
  exact h v hv w hw

theorem reflSafeT_resolve : ∀ (t : TypeExpr), reflSafeT t = true →
    reflSafeT (resolveT t) = true
  | .tannot s t, h => by
    rw [resolveT]
    exact reflSafeT_resolve t (by simpa [reflSafeT] using h)
  | .grouping t, h => by
    rw [resolveT]
    exact reflSafeT_resolve t (by simpa [reflSafeT] using h)
  | .terminal p, h => by simpa [resolveT] using h
  | .unary t, h => by simpa [resolveT] using h
  | .binary l r, h => by simpa [resolveT] using h
  | .arr t, h => by simpa [resolveT] using h
  | .tmap fs req, h => by simpa [resolveT] using h
  | .tenum vs, h => by simpa [resolveT] using h
termination_by t => sizeOf t

theorem cmpList_refl_of (xs : List MObject)
    (h : ∀ x ∈ xs, compare x x = some true) : cmpList xs xs = some true := by
  induction xs with
  | nil => simp [cmpList]
  | cons x rest ih =>
    simp only [cmpList, h x (by simp)]
    exact ih (fun y hy => h y (by simp [hy]))

theorem cmpDict_cons (k : String) (xv : MObject)
    (rest y : List (String × MObject)) :
    cmpDict ((k, xv) :: rest) y =
      (match findVal k y with
       | none => none
       | some yv =>
         match compare xv yv with
         | none => none
         | some false => some false
         | some true => cmpDict rest y) := by
  rw [cmpDict]
  cases findVal k y <;> rfl

theorem subtyFields_cons (k : String) (t : TypeExpr)
    (rest f2 : List (String × TypeExpr)) :
    subtyFields ((k, t) :: rest) f2 =
      (match findVal k f2 with
       | none => subtyFields rest f2
       | some b =>
         match subty t b with
         | none => none
         | some false => some false
         | some true => subtyFields rest f2) := by
  rw [subtyFields]
  cases findVal k f2 <;> rfl

theorem checkFields_cons (v : List (String × MObject)) (k : String)
    (ft : TypeExpr) (rest : List (String × TypeExpr)) (req : List String) :
    checkFields v ((k, ft) :: rest) req =
      (match findVal k v with
       | some xv =>
         match checkty xv ft with
         | none => none
         | some false => some false
         | some true => checkFields v rest (req.erase k)
       | none =>
         if req.contains k then some false else checkFields v rest req) := by
  rw [checkFields]
  cases findVal k v <;> rfl

theorem cmpDict_refl_of (sub m : List (String × MObject))
    (hfind : ∀ p ∈ sub, findVal p.1 m = some p.2)
    (h : ∀ p ∈ sub, compare p.2 p.2 = some true) :
    cmpDict sub m = some true := by
  induction sub with
  | nil => simp [cmpDict]
  | cons p rest ih =>
    obtain ⟨k, xv⟩ := p
    have h1 : findVal k m = some xv := hfind (k, xv) (by simp)
    have h2 : compare xv xv = some true := h (k, xv) (by simp)
    rw [cmpDict_cons, h1]
    dsimp only
    rw [h2]
    exact ih (fun q hq => hfind q (by simp [hq])) (fun q hq => h q (by simp [hq]))

theorem existsCmp_mem_true (v : MObject) (ws : List MObject)
    (hdefs : ∀ w ∈ ws, (compare v w).isSome = true)
    (hmem : v ∈ ws) (hself : compare v v = some true) :
    existsCmp v ws = some true := by
  induction ws with
  | nil => cases hmem
  | cons w rest ih =>
    rcases List.mem_cons.mp hmem with rfl | hmem'
    · simp only [existsCmp, hself]
    · cases hw : compare v w with
      | none =>
        have := hdefs w (by simp)
        rw [hw] at this
        cases this
      | some b =>
        cases b with
        | true => simp only [existsCmp, hw]
        | false =>
          simp only [existsCmp, hw]
          exact ih (fun w' h' => hdefs w' (by simp [h'])) hmem'

theorem subtyFields_refl_of (sub fs : List (String × TypeExpr))
    (hfind : ∀ p ∈ sub, findVal p.1 fs = some p.2)
    (h : ∀ p ∈ sub, subty p.2 p.2 = some true) :
    subtyFields sub fs = some true := by
  induction sub with
  | nil => simp [subtyFields]
  | cons p rest ih =>
    obtain ⟨k, t⟩ := p
    have h1 : findVal k fs = some t := hfind (k, t) (by simp)
    have h2 : subty t t = some true := h (k, t) (by simp)
    rw [subtyFields_cons, h1]
    dsimp only
    rw [h2]
    exact ih (fun q hq => hfind q (by simp [hq])) (fun q hq => h q (by simp [hq]))

theorem enumSub_refl_of (sub vs : List MObject)
    (h : ∀ v ∈ sub, existsCmp v vs = some true) : enumSub sub vs = some true := by
  induction sub with
  | nil => simp [enumSub]
  | cons v rest ih =>
    simp only [enumSub, h v (by simp)]
    exact ih (fun w hw => h w (by simp [hw]))

mutual
/-- `compare` is reflexive on values without NaN, with unique dict keys
and with reflexivity-safe type leaves. -/
theorem compare_refl : ∀ (x : MObject), selfEqSafeO x = true → compare x x = some true
  | .mval v a, h => by
    match v, h with
    | .vnull, _ => simp [compare]
    | .vbool b, _ => simp [compare]
    | .vint n, _ => simp [compare]
    | .vfloat (.finite q), _ => simp [compare, PyFloat.beqF]
    | .vfloat .inf, _ => simp [compare, PyFloat.beqF]
    | .vfloat .ninf, _ => simp [compare, PyFloat.beqF]
    | .vfloat .nan, h => simp [selfEqSafeO, selfEqSafeV] at h
    | .vstr s, _ => simp [compare]
    | .vlist xs, h =>
      have hsafe : selfEqSafeL xs = true := by
        simpa [selfEqSafeO, selfEqSafeV] using h
      simp only [compare, if_pos rfl]
      exact cmpList_refl_of xs (fun x hx =>
        compare_refl x (selfEqSafeL_mem hsafe hx))
    | .vdict m, h =>
      have hsafe : nodupKeys m = true ∧ selfEqSafeE m = true := by
        simpa [selfEqSafeO, selfEqSafeV] using h
      simp only [compare, if_pos rfl]
      exact cmpDict_refl_of m m
        (fun p hp => by
          obtain ⟨k, v'⟩ := p
          show findVal k m = some v'
          exact findVal_of_nodup_mem hsafe.1 hp)
        (fun p hp => by
          obtain ⟨k, v'⟩ := p
          exact compare_refl v' (selfEqSafeE_mem hsafe.2 hp))
  | .mtype t, h => by
    have hs : subty t t = some true :=
      subty_refl t (by simpa [selfEqSafeO] using h)
    simp only [compare, hs]
  | .mfun i aT rT, _ => by simp [compare]
termination_by x => (sizeOf x, 1)
decreasing_by
  all_goals simp_wf
  all_goals first
  | exact lexLeft (by omega)
  | exact lexLeft (by
      have h1 := List.sizeOf_lt_of_mem hx
      omega)
  | exact lexLeft (by
      have h1 := List.sizeOf_lt_of_mem hp
      obtain ⟨k, v'⟩ := p
      simp at h1 ⊢
      omega)

/-- The subtype check is reflexive on reflexivity-safe types. -/
theorem subty_refl : ∀ (t : TypeExpr), reflSafeT t = true → subty t t = some true
  | .tannot s t, h => by
    have he : subty (tannot s t) (tannot s t) = subty t t := by
      rw [subty, subty, resolveT]
    rw [he]
    exact subty_refl t (by simpa [reflSafeT] using h)
  | .grouping t, h => by
    have he : subty (grouping t) (grouping t) = subty t t := by
      rw [subty, subty, resolveT]
    rw [he]
    exact subty_refl t (by simpa [reflSafeT] using h)
  | .terminal p, _ => by
    rw [subty, resolveT]
    cases p <;> simp [subtyR]
  | .unary t, h => by
    rw [subty, resolveT]
    simp only [subtyR]
    exact subty_refl t (by simpa [reflSafeT] using h)
  | .binary l r, h => by
    have hl : subty l l = some true :=
      subty_refl l (by simp [reflSafeT] at h; exact h.1)
    have hr : subty r r = some true :=
      subty_refl r (by simp [reflSafeT] at h; exact h.2)
    rw [subty, resolveT]
    simp only [subtyR, hl, hr]
  | .arr t, h => by
    rw [subty, resolveT]
    simp only [subtyR]
    exact subty_refl t (by simpa [reflSafeT] using h)
  | .tmap fs req, h => by
    have hh : nodupKeys fs = true ∧ reflSafeF fs = true := by
      simpa [reflSafeT] using h
    rw [subty, resolveT]
    simp only [subtyR]
    rw [if_pos (by simp [List.all_eq_true])]
    exact subtyFields_refl_of fs fs
      (fun p hp => by
        obtain ⟨k, t'⟩ := p
        show findVal k fs = some t'
        exact findVal_of_nodup_mem hh.1 hp)
      (fun p hp => by
        obtain ⟨k, t'⟩ := p
        exact subty_refl t' (reflSafeF_mem hh.2 hp))
  | .tenum vs, h => by
    have hh : selfEqSafeL vs = true ∧ pairwiseDefined vs = true := by
      simpa [reflSafeT] using h
    rw [subty, resolveT]
    simp only [subtyR]
    refine enumSub_refl_of vs vs (fun v hv => ?_)
    exact existsCmp_mem_true v vs
      (fun w hw => pairwiseDefined_mem hh.2 hv hw) hv
      (compare_refl v (selfEqSafeL_mem hh.1 hv))
termination_by t => (sizeOf t, 0)
decreasing_by
  all_goals simp_wf
  all_goals first
  | exact lexLeft (by omega)
  | exact lexLeft (by
      have h1 := List.sizeOf_lt_of_mem hv
      omega)
  | exact lexLeft (by
      have h1 := List.sizeOf_lt_of_mem hp
      obtain ⟨k, t'⟩ := p
      simp at h1 ⊢
      omega)
end

/-! ### Symmetry of `compare` -/

theorem beq_symm {α : Type} [BEq α] [LawfulBEq α] (a b : α) :
    (a == b) = (b == a) := by
  by_cases h : a = b
  · simp [h]
  · have h2 : ¬ b = a := fun he => h he.symm
    simp [h, h2]

theorem beqF_comm (f g : PyFloat) : f.beqF g = g.beqF f := by
  cases f <;> cases g <;> simp only [PyFloat.beqF] <;>
    first
    | rfl
    | exact beq_symm _ _

theorem dictsNodupL_mem {xs : List MObject} {x : MObject}
    (h : dictsNodupL xs = true) (hx : x ∈ xs) : dictsNodupO x = true := by
  induction xs with
  | nil => cases hx
  | cons y rest ih =>
    simp only [dictsNodupL, Bool.and_eq_true] at h
    rcases List.mem_cons.mp hx with rfl | hx'
    · exact h.1
    · exact ih h.2 hx'

theorem dictsNodupE_mem {m : List (String × MObject)} {k : String} {x : MObject}
    (h : dictsNodupE m = true) (hx : (k, x) ∈ m) : dictsNodupO x = true := by
  induction m with
  | nil => cases hx
  | cons p rest ih =>
    obtain ⟨k', v'⟩ := p
    simp only [dictsNodupE, Bool.and_eq_true] at h
    rcases List.mem_cons.mp hx with he | hx'
    · cases he; exact h.1
    · exact ih h.2 hx'

theorem cmpDict_true_spec (sub m : List (String × MObject)) :
    cmpDict sub m = some true →
    ∀ p ∈ sub, ∃ yv, findVal p.1 m = some yv ∧ compare p.2 yv = some true := by
  induction sub with
  | nil => intro _ p hp; cases hp
  | cons q rest ih =>
    obtain ⟨k, xv⟩ := q
    intro h p hp
    rw [cmpDict_cons] at h
    cases hf : findVal k m with
    | none => rw [hf] at h; cases h
    | some yv =>
      rw [hf] at h
      dsimp only at h
      cases hc : compare xv yv with
      | none => rw [hc] at h; cases h
      | some b =>
        rw [hc] at h
        cases b with
        | false => cases h
        | true =>
          rcases List.mem_cons.mp hp with he | hp'
          · cases he
            exact ⟨yv, hf, hc⟩
          · exact ih h p hp'

theorem cmpDict_false_spec (sub m : List (String × MObject)) :
    cmpDict sub m = some false →
    ∃ k xv yv, (k, xv) ∈ sub ∧ findVal k m = some yv ∧
      compare xv yv = some false := by
  induction sub with
  | nil => intro h; simp [cmpDict] at h
  | cons q rest ih =>
    obtain ⟨k, xv⟩ := q
    intro h
    rw [cmpDict_cons] at h
    cases hf : findVal k m with
    | none => rw [hf] at h; cases h
    | some yv =>
      rw [hf] at h
      dsimp only at h
      cases hc : compare xv yv with
      | none => rw [hc] at h; cases h
      | some b =>
        rw [hc] at h
        cases b with
        | false => exact ⟨k, xv, yv, by simp, hf, hc⟩
        | true =>
          obtain ⟨k', xv', yv', hmem, hf', hc'⟩ := ih h
          exact ⟨k', xv', yv', by simp [hmem], hf', hc'⟩

theorem cmpDict_symm_of (x y : List (String × MObject))
    (IH : ∀ k1 xv k2 yv, (k1, xv) ∈ x → (k2, yv) ∈ y → ∀ b1 b2 : Bool,
      compare xv yv = some b1 → compare yv xv = some b2 → b1 = b2)
    (hnx : nodupKeys x = true) (hny : nodupKeys y = true) :
    ∀ b1 b2 : Bool, cmpDict x y = some b1 → cmpDict y x = some b2 → b1 = b2 := by
  intro b1 b2 h1 h2
  cases b1 <;> cases b2
  · rfl
  · obtain ⟨k, xv, yv, hkx, hfy, hcf⟩ := cmpDict_false_spec x y h1
    have hky : (k, yv) ∈ y := findVal_mem hfy
    obtain ⟨xv', hfx, hct⟩ := cmpDict_true_spec y x h2 (k, yv) hky
    have hx : findVal k x = some xv := findVal_of_nodup_mem hnx hkx
    rw [hx] at hfx
    injection hfx with he
    subst he
    exact absurd (IH k xv k yv hkx hky false true hcf hct) (by simp)
  · obtain ⟨k, yv, xv, hky, hfx, hcf⟩ := cmpDict_false_spec y x h2
    have hkx : (k, xv) ∈ x := findVal_mem hfx
    obtain ⟨yv', hfy, hct⟩ := cmpDict_true_spec x y h1 (k, xv) hkx
    have hy : findVal k y = some yv := findVal_of_nodup_mem hny hky
    rw [hy] at hfy
    injection hfy with he
    subst he
    exact absurd (IH k xv k yv hkx hky true false hct hcf) (by simp)
  · rfl

theorem cmpList_symm_of (xs ys : List MObject)
    (IH : ∀ x ∈ xs, ∀ y ∈ ys, ∀ b1 b2 : Bool, compare x y = some b1 →
      compare y x = some b2 → b1 = b2) :
    ∀ b1 b2 : Bool, cmpList xs ys = some b1 → cmpList ys xs = some b2 →
      b1 = b2 := by
  induction xs generalizing ys with
  | nil =>
    intro b1 b2 h1 h2
    cases ys with
    | nil =>
      simp only [cmpList] at h1 h2
      injection h1 with h1
      injection h2 with h2
      rw [← h1, ← h2]
    | cons y ys' =>
      simp only [cmpList] at h1 h2
      injection h1 with h1
      injection h2 with h2
      rw [← h1, ← h2]
  | cons x xs' ih =>
    intro b1 b2 h1 h2
    cases ys with
    | nil =>
      simp only [cmpList] at h1 h2
      injection h1 with h1
      injection h2 with h2
      rw [← h1, ← h2]
    | cons y ys' =>
      simp only [cmpList] at h1 h2
      cases hxy : compare x y with
      | none => rw [hxy] at h1; cases h1
      | some bx =>
        rw [hxy] at h1
        cases hyx : compare y x with
        | none => rw [hyx] at h2; cases h2
        | some byx =>
          rw [hyx] at h2
          have hbb : bx = byx := IH x (by simp) y (by simp) bx byx hxy hyx
          subst hbb
          cases bx with
          | false =>
            dsimp only at h1 h2
            injection h1 with h1
            injection h2 with h2
            rw [← h1, ← h2]
          | true =>
            dsimp only at h1 h2
            exact ih ys' (fun x' hx' y' hy' => IH x' (by simp [hx']) y'
              (by simp [hy'])) b1 b2 h1 h2

/-- Whenever both orientations of `compare` return a boolean, the two
booleans agree (dict keys assumed unique, as Python guarantees). -/
theorem compare_symm : ∀ (x y : MObject) (b1 b2 : Bool),
    dictsNodupO x = true → dictsNodupO y = true →
    compare x y = some b1 → compare y x = some b2 → b1 = b2
  | .mval .vnull a, .mval .vnull c, b1, b2, _, _, h1, h2 => by
    simp only [compare] at h1 h2
    injection h1 with h1
    injection h2 with h2
    rw [← h1, ← h2]
    try exact beq_symm _ _
    try exact beqF_comm _ _
  | .mval .vnull a, .mval (.vbool q) c, b1, b2, _, _, h1, h2 => by
    simp only [compare] at h1 h2
    injection h1 with h1
    injection h2 with h2
    rw [← h1, ← h2]
    try exact beq_symm _ _
    try exact beqF_comm _ _
  | .mval .vnull a, .mval (.vint q) c, b1, b2, _, _, h1, h2 => by
    simp only [compare] at h1 h2
    injection h1 with h1
    injection h2 with h2
    rw [← h1, ← h2]
    try exact beq_symm _ _
    try exact beqF_comm _ _
  | .mval .vnull a, .mval (.vfloat q) c, b1, b2, _, _, h1, h2 => by
    simp only [compare] at h1 h2
    injection h1 with h1
    injection h2 with h2
    rw [← h1, ← h2]
    try exact beq_symm _ _
    try exact beqF_comm _ _
  | .mval .vnull a, .mval (.vstr q) c, b1, b2, _, _, h1, h2 => by
    simp only [compare] at h1 h2
    injection h1 with h1
    injection h2 with h2
    rw [← h1, ← h2]
    try exact beq_symm _ _
    try exact beqF_comm _ _
  | .mval .vnull a, .mval (.vlist q) c, b1, b2, _, _, h1, h2 => by
    simp only [compare] at h1 h2
    injection h1 with h1
    injection h2 with h2
    rw [← h1, ← h2]
    try exact beq_symm _ _
    try exact beqF_comm _ _
  | .mval .vnull a, .mval (.vdict q) c, b1, b2, _, _, h1, h2 => by
    simp only [compare] at h1 h2
    injection h1 with h1
    injection h2 with h2
    rw [← h1, ← h2]
    try exact beq_symm _ _
    try exact beqF_comm _ _
  | .mval (.vbool p) a, .mval .vnull c, b1, b2, _, _, h1, h2 => by
    simp only [compare] at h1 h2
    injection h1 with h1
    injection h2 with h2
    rw [← h1, ← h2]
    try exact beq_symm _ _
    try exact beqF_comm _ _
  | .mval (.vbool p) a, .mval (.vbool q) c, b1, b2, _, _, h1, h2 => by
    simp only [compare] at h1 h2
    injection h1 with h1
    injection h2 with h2
    rw [← h1, ← h2]
    try exact beq_symm _ _
    try exact beqF_comm _ _
  | .mval (.vbool p) a, .mval (.vint q) c, b1, b2, _, _, h1, h2 => by
    simp only [compare] at h1 h2
    injection h1 with h1
    injection h2 with h2
    rw [← h1, ← h2]
    try exact beq_symm _ _
    try exact beqF_comm _ _
  | .mval (.vbool p) a, .mval (.vfloat q) c, b1, b2, _, _, h1, h2 => by
    simp only [compare] at h1 h2
    injection h1 with h1
    injection h2 with h2
    rw [← h1, ← h2]
    try exact beq_symm _ _
    try exact beqF_comm _ _
  | .mval (.vbool p) a, .mval (.vstr q) c, b1, b2, _, _, h1, h2 => by
    simp only [compare] at h1 h2
    injection h1 with h1
    injection h2 with h2
    rw [← h1, ← h2]
    try exact beq_symm _ _
    try exact beqF_comm _ _
  | .mval (.vbool p) a, .mval (.vlist q) c, b1, b2, _, _, h1, h2 => by
    simp only [compare] at h1 h2
    injection h1 with h1
    injection h2 with h2
    rw [← h1, ← h2]
    try exact beq_symm _ _
    try exact beqF_comm _ _
  | .mval (.vbool p) a, .mval (.vdict q) c, b1, b2, _, _, h1, h2 => by
    simp only [compare] at h1 h2
    injection h1 with h1
    injection h2 with h2
    rw [← h1, ← h2]
    try exact beq_symm _ _
    try exact beqF_comm _ _
  | .mval (.vint p) a, .mval .vnull c, b1, b2, _, _, h1, h2 => by
    simp only [compare] at h1 h2
    injection h1 with h1
    injection h2 with h2
    rw [← h1, ← h2]
    try exact beq_symm _ _
    try exact beqF_comm _ _
  | .mval (.vint p) a, .mval (.vbool q) c, b1, b2, _, _, h1, h2 => by
    simp only [compare] at h1 h2
    injection h1 with h1
    injection h2 with h2
    rw [← h1, ← h2]
    try exact beq_symm _ _
    try exact beqF_comm _ _
  | .mval (.vint p) a, .mval (.vint q) c, b1, b2, _, _, h1, h2 => by
    simp only [compare] at h1 h2
    injection h1 with h1
    injection h2 with h2
    rw [← h1, ← h2]
    try exact beq_symm _ _
    try exact beqF_comm _ _
  | .mval (.vint p) a, .mval (.vfloat q) c, b1, b2, _, _, h1, h2 => by
    simp only [compare] at h1 h2
    injection h1 with h1
    injection h2 with h2
    rw [← h1, ← h2]
    try exact beq_symm _ _
    try exact beqF_comm _ _
  | .mval (.vint p) a, .mval (.vstr q) c, b1, b2, _, _, h1, h2 => by
    simp only [compare] at h1 h2
    injection h1 with h1
    injection h2 with h2
    rw [← h1, ← h2]
    try exact beq_symm _ _
    try exact beqF_comm _ _
  | .mval (.vint p) a, .mval (.vlist q) c, b1, b2, _, _, h1, h2 => by
    simp only [compare] at h1 h2
    injection h1 with h1
    injection h2 with h2
    rw [← h1, ← h2]
    try exact beq_symm _ _
    try exact beqF_comm _ _
  | .mval (.vint p) a, .mval (.vdict q) c, b1, b2, _, _, h1, h2 => by
    simp only [compare] at h1 h2
    injection h1 with h1
    injection h2 with h2
    rw [← h1, ← h2]
    try exact beq_symm _ _
    try exact beqF_comm _ _
  | .mval (.vfloat p) a, .mval .vnull c, b1, b2, _, _, h1, h2 => by
    simp only [compare] at h1 h2
    injection h1 with h1
    injection h2 with h2
    rw [← h1, ← h2]
    try exact beq_symm _ _
    try exact beqF_comm _ _
  | .mval (.vfloat p) a, .mval (.vbool q) c, b1, b2, _, _, h1, h2 => by
    simp only [compare] at h1 h2
    injection h1 with h1
    injection h2 with h2
    rw [← h1, ← h2]
    try exact beq_symm _ _
    try exact beqF_comm _ _
  | .mval (.vfloat p) a, .mval (.vint q) c, b1, b2, _, _, h1, h2 => by
    simp only [compare] at h1 h2
    injection h1 with h1
    injection h2 with h2
    rw [← h1, ← h2]
    try exact beq_symm _ _
    try exact beqF_comm _ _
  | .mval (.vfloat p) a, .mval (.vfloat q) c, b1, b2, _, _, h1, h2 => by
    simp only [compare] at h1 h2
    injection h1 with h1
    injection h2 with h2
    rw [← h1, ← h2]
    try exact beq_symm _ _
    try exact beqF_comm _ _
  | .mval (.vfloat p) a, .mval (.vstr q) c, b1, b2, _, _, h1, h2 => by
    simp only [compare] at h1 h2
    injection h1 with h1
    injection h2 with h2
    rw [← h1, ← h2]
    try exact beq_symm _ _
    try exact beqF_comm _ _
  | .mval (.vfloat p) a, .mval (.vlist q) c, b1, b2, _, _, h1, h2 => by
    simp only [compare] at h1 h2
    injection h1 with h1
    injection h2 with h2
    rw [← h1, ← h2]
    try exact beq_symm _ _
    try exact beqF_comm _ _
  | .mval (.vfloat p) a, .mval (.vdict q) c, b1, b2, _, _, h1, h2 => by
    simp only [compare] at h1 h2
    injection h1 with h1
    injection h2 with h2
    rw [← h1, ← h2]
    try exact beq_symm _ _
    try exact beqF_comm _ _
  | .mval (.vstr p) a, .mval .vnull c, b1, b2, _, _, h1, h2 => by
    simp only [compare] at h1 h2
    injection h1 with h1
    injection h2 with h2
    rw [← h1, ← h2]
    try exact beq_symm _ _
    try exact beqF_comm _ _
  | .mval (.vstr p) a, .mval (.vbool q) c, b1, b2, _, _, h1, h2 => by
    simp only [compare] at h1 h2
    injection h1 with h1
    injection h2 with h2
    rw [← h1, ← h2]
    try exact beq_symm _ _
    try exact beqF_comm _ _
  | .mval (.vstr p) a, .mval (.vint q) c, b1, b2, _, _, h1, h2 => by
    simp only [compare] at h1 h2
    injection h1 with h1
    injection h2 with h2
    rw [← h1, ← h2]
    try exact beq_symm _ _
    try exact beqF_comm _ _
  | .mval (.vstr p) a, .mval (.vfloat q) c, b1, b2, _, _, h1, h2 => by
    simp only [compare] at h1 h2
    injection h1 with h1
    injection h2 with h2
    rw [← h1, ← h2]
    try exact beq_symm _ _
    try exact beqF_comm _ _
  | .mval (.vstr p) a, .mval (.vstr q) c, b1, b2, _, _, h1, h2 => by
    simp only [compare] at h1 h2
    injection h1 with h1
    injection h2 with h2
    rw [← h1, ← h2]
    try exact beq_symm _ _
    try exact beqF_comm _ _
  | .mval (.vstr p) a, .mval (.vlist q) c, b1, b2, _, _, h1, h2 => by
    simp only [compare] at h1 h2
    injection h1 with h1
    injection h2 with h2
    rw [← h1, ← h2]
    try exact beq_symm _ _
    try exact beqF_comm _ _
  | .mval (.vstr p) a, .mval (.vdict q) c, b1, b2, _, _, h1, h2 => by
    simp only [compare] at h1 h2
    injection h1 with h1
    injection h2 with h2
    rw [← h1, ← h2]
    try exact beq_symm _ _
    try exact beqF_comm _ _
  | .mval (.vlist p) a, .mval .vnull c, b1, b2, _, _, h1, h2 => by
    simp only [compare] at h1 h2
    injection h1 with h1
    injection h2 with h2
    rw [← h1, ← h2]
    try exact beq_symm _ _
    try exact beqF_comm _ _
  | .mval (.vlist p) a, .mval (.vbool q) c, b1, b2, _, _, h1, h2 => by
    simp only [compare] at h1 h2
    injection h1 with h1
    injection h2 with h2
    rw [← h1, ← h2]
    try exact beq_symm _ _
    try exact beqF_comm _ _
  | .mval (.vlist p) a, .mval (.vint q) c, b1, b2, _, _, h1, h2 => by
    simp only [compare] at h1 h2
    injection h1 with h1
    injection h2 with h2
    rw [← h1, ← h2]
    try exact beq_symm _ _
    try exact beqF_comm _ _
  | .mval (.vlist p) a, .mval (.vfloat q) c, b1, b2, _, _, h1, h2 => by
    simp only [compare] at h1 h2
    injection h1 with h1
    injection h2 with h2
    rw [← h1, ← h2]
    try exact beq_symm _ _
    try exact beqF_comm _ _
  | .mval (.vlist p) a, .mval (.vstr q) c, b1, b2, _, _, h1, h2 => by
    simp only [compare] at h1 h2
    injection h1 with h1
    injection h2 with h2
    rw [← h1, ← h2]
    try exact beq_symm _ _
    try exact beqF_comm _ _
  | .mval (.vlist xs) a, .mval (.vlist ys) c, b1, b2, hnx, hny, h1, h2 => by
    simp only [compare] at h1 h2
    by_cases hl : xs.length = ys.length
    · rw [if_pos hl] at h1
      rw [if_pos hl.symm] at h2
      have hnx' : dictsNodupL xs = true := by
        simpa [dictsNodupO, dictsNodupV] using hnx
      have hny' : dictsNodupL ys = true := by
        simpa [dictsNodupO, dictsNodupV] using hny
      exact cmpList_symm_of xs ys (fun x' hx' y' hy' b1' b2' hc1 hc2 =>
        compare_symm x' y' b1' b2' (dictsNodupL_mem hnx' hx')
          (dictsNodupL_mem hny' hy') hc1 hc2) b1 b2 h1 h2
    · rw [if_neg hl] at h1
      rw [if_neg (fun he => hl he.symm)] at h2
      injection h1 with h1
      injection h2 with h2
      rw [← h1, ← h2]
  | .mval (.vlist p) a, .mval (.vdict q) c, b1, b2, _, _, h1, h2 => by
    simp only [compare] at h1 h2
    injection h1 with h1
    injection h2 with h2
    rw [← h1, ← h2]
    try exact beq_symm _ _
    try exact beqF_comm _ _
  | .mval (.vdict p) a, .mval .vnull c, b1, b2, _, _, h1, h2 => by
    simp only [compare] at h1 h2
    injection h1 with h1
    injection h2 with h2
    rw [← h1, ← h2]
    try exact beq_symm _ _
    try exact beqF_comm _ _
  | .mval (.vdict p) a, .mval (.vbool q) c, b1, b2, _, _, h1, h2 => by
    simp only [compare] at h1 h2
    injection h1 with h1
    injection h2 with h2
    rw [← h1, ← h2]
    try exact beq_symm _ _
    try exact beqF_comm _ _
  | .mval (.vdict p) a, .mval (.vint q) c, b1, b2, _, _, h1, h2 => by
    simp only [compare] at h1 h2
    injection h1 with h1
    injection h2 with h2
    rw [← h1, ← h2]
    try exact beq_symm _ _
    try exact beqF_comm _ _
  | .mval (.vdict p) a, .mval (.vfloat q) c, b1, b2, _, _, h1, h2 => by
    simp only [compare] at h1 h2
    injection h1 with h1
    injection h2 with h2
    rw [← h1, ← h2]
    try exact beq_symm _ _
    try exact beqF_comm _ _
  | .mval (.vdict p) a, .mval (.vstr q) c, b1, b2, _, _, h1, h2 => by
    simp only [compare] at h1 h2
    injection h1 with h1
    injection h2 with h2
    rw [← h1, ← h2]
    try exact beq_symm _ _
    try exact beqF_comm _ _
  | .mval (.vdict p) a, .mval (.vlist q) c, b1, b2, _, _, h1, h2 => by
    simp only [compare] at h1 h2
    injection h1 with h1
    injection h2 with h2
    rw [← h1, ← h2]
    try exact beq_symm _ _
    try exact beqF_comm _ _
  | .mval (.vdict mx) a, .mval (.vdict my) c, b1, b2, hnx, hny, h1, h2 => by
    simp only [compare] at h1 h2
    by_cases hl : mx.length = my.length
    · rw [if_pos hl] at h1
      rw [if_pos hl.symm] at h2
      have hnx' : nodupKeys mx = true ∧ dictsNodupE mx = true := by
        simpa [dictsNodupO, dictsNodupV] using hnx
      have hny' : nodupKeys my = true ∧ dictsNodupE my = true := by
        simpa [dictsNodupO, dictsNodupV] using hny
      exact cmpDict_symm_of mx my (fun k1 xv k2 yv hk1 hk2 b1' b2' hc1 hc2 =>
        compare_symm xv yv b1' b2' (dictsNodupE_mem hnx'.2 hk1)
          (dictsNodupE_mem hny'.2 hk2) hc1 hc2) hnx'.1 hny'.1 b1 b2 h1 h2
    · rw [if_neg hl] at h1
      rw [if_neg (fun he => hl he.symm)] at h2
      injection h1 with h1
      injection h2 with h2
      rw [← h1, ← h2]
  | .mval v a, .mtype t, b1, b2, _, _, h1, h2 => by
    simp only [compare] at h1 h2
    injection h1 with h1
    injection h2 with h2
    rw [← h1, ← h2]
  | .mval v a, .mfun j aT rT, b1, b2, _, _, h1, h2 => by
    simp only [compare] at h1 h2
    injection h1 with h1
    injection h2 with h2
    rw [← h1, ← h2]
  | .mtype t, .mval v a, b1, b2, _, _, h1, h2 => by
    simp only [compare] at h1 h2
    injection h1 with h1
    injection h2 with h2
    rw [← h1, ← h2]
  | .mtype t1, .mtype t2, b1, b2, _, _, h1, h2 => by
    simp only [compare] at h1 h2
    cases hs1 : subty t1 t2 with
    | none => rw [hs1] at h1; cases h1
    | some s1 =>
      rw [hs1] at h1
      cases hs2 : subty t2 t1 with
      | none => rw [hs2] at h2; cases h2
      | some s2 =>
        rw [hs2] at h2
        cases s1 with
        | false =>
          dsimp only at h1
          injection h1 with h1
          cases s2 with
          | false =>
            dsimp only at h2
            injection h2 with h2
            rw [← h1, ← h2]
          | true =>
            dsimp only at h2
            rw [hs1] at h2
            injection h2 with h2
            rw [← h1, ← h2]
        | true =>
          dsimp only at h1
          rw [hs2] at h1
          injection h1 with h1
          cases s2 with
          | false =>
            dsimp only at h2
            injection h2 with h2
            rw [← h1, ← h2]
          | true =>
            dsimp only at h2
            rw [hs1] at h2
            injection h2 with h2
            rw [← h1, ← h2]
  | .mtype t, .mfun j aT rT, b1, b2, _, _, h1, h2 => by
    simp only [compare] at h1 h2
    injection h1 with h1
    injection h2 with h2
    rw [← h1, ← h2]
  | .mfun i aT rT, .mval v a, b1, b2, _, _, h1, h2 => by
    simp only [compare] at h1 h2
    injection h1 with h1
    injection h2 with h2
    rw [← h1, ← h2]
  | .mfun i aT rT, .mtype t, b1, b2, _, _, h1, h2 => by
    simp only [compare] at h1 h2
    injection h1 with h1
    injection h2 with h2
    rw [← h1, ← h2]
  | .mfun i aT rT, .mfun j aT' rT', b1, b2, _, _, h1, h2 => by
    simp only [compare] at h1 h2
    injection h1 with h1
    injection h2 with h2
    rw [← h1, ← h2]
    exact beq_symm _ _
termination_by x y => sizeOf x + sizeOf y
decreasing_by
  all_goals simp_wf
  all_goals first
  | (have hx1 := List.sizeOf_lt_of_mem hx'
     have hy1 := List.sizeOf_lt_of_mem hy'
     omega)
  | (have hx1 := List.sizeOf_lt_of_mem hk1
     have hy1 := List.sizeOf_lt_of_mem hk2
     simp at hx1 hy1
     omega)

/-! ### Transitivity of `compare` on `true` results -/

theorem noTypesL_mem {xs : List MObject} {x : MObject}
    (h : noTypesL xs = true) (hx : x ∈ xs) : noTypesO x = true := by
  induction xs with
  | nil => cases hx
  | cons y rest ih =>
    simp only [noTypesL, Bool.and_eq_true] at h
    rcases List.mem_cons.mp hx with rfl | hx'
    · exact h.1
    · exact ih h.2 hx'

theorem noTypesE_mem {m : List (String × MObject)} {k : String} {x : MObject}
    (h : noTypesE m = true) (hx : (k, x) ∈ m) : noTypesO x = true := by
  induction m with
  | nil => cases hx
  | cons p rest ih =>
    obtain ⟨k', v'⟩ := p
    simp only [noTypesE, Bool.and_eq_true] at h
    rcases List.mem_cons.mp hx with he | hx'
    · cases he; exact h.1
    · exact ih h.2 hx'

theorem beqInt_true_elim {f : PyFloat} {n : ℤ} (h : f.beqInt n = true) :
    ∃ q, f = .finite q ∧ q = (n : ℚ) := by
  cases f with
  | finite q =>
    refine ⟨q, rfl, ?_⟩
    simpa [PyFloat.beqInt] using h
  | inf => simp [PyFloat.beqInt] at h
  | ninf => simp [PyFloat.beqInt] at h
  | nan => simp [PyFloat.beqInt] at h

theorem beqF_true_elim {f g : PyFloat} (h : f.beqF g = true) : f = g := by
  cases f <;> cases g <;> simp [PyFloat.beqF] at h <;> simp [h]

theorem cmpDict_of_forall_true (sub m : List (String × MObject))
    (h : ∀ p ∈ sub, ∃ yv, findVal p.1 m = some yv ∧ compare p.2 yv = some true) :
    cmpDict sub m = some true := by
  induction sub with
  | nil => simp [cmpDict]
  | cons q rest ih =>
    obtain ⟨k, xv⟩ := q
    obtain ⟨yv, hf, hc⟩ := h (k, xv) (by simp)
    rw [cmpDict_cons, hf]
    dsimp only
    rw [hc]
    exact ih (fun p hp => h p (by simp [hp]))

theorem cmpList_trans_of : ∀ (xs ys zs : List MObject),
    (∀ x ∈ xs, ∀ y ∈ ys, ∀ z ∈ zs, compare x y = some true →
      compare y z = some true → compare x z = some true) →
    xs.length = ys.length → ys.length = zs.length →
    cmpList xs ys = some true → cmpList ys zs = some true →
    cmpList xs zs = some true
  | [], [], [], _, _, _, _, _ => by simp [cmpList]
  | [], [], _ :: _, _, _, hyz, _, _ => by simp at hyz
  | [], _ :: _, _, _, hxy, _, _, _ => by simp at hxy
  | _ :: _, [], _, _, hxy, _, _, _ => by simp at hxy
  | _ :: _, _ :: _, [], _, _, hyz, _, _ => by simp at hyz
  | x :: xs', y :: ys', z :: zs', hIH, hxy, hyz, h1, h2 => by
    simp only [cmpList] at h1 h2 ⊢
    cases hc1 : compare x y with
    | none => rw [hc1] at h1; cases h1
    | some b1 =>
      rw [hc1] at h1
      cases b1 with
      | false => dsimp only at h1; cases h1
      | true =>
        dsimp only at h1
        cases hc2 : compare y z with
        | none => rw [hc2] at h2; cases h2
        | some b2 =>
          rw [hc2] at h2
          cases b2 with
          | false => dsimp only at h2; cases h2
          | true =>
            dsimp only at h2
            rw [hIH x (by simp) y (by simp) z (by simp) hc1 hc2]
            dsimp only
            exact cmpList_trans_of xs' ys' zs'
              (fun x' hx' y' hy' z' hz' => hIH x' (by simp [hx']) y'
                (by simp [hy']) z' (by simp [hz']))
              (by simpa using hxy) (by simpa using hyz) h1 h2

/-- Transitivity of `compare` on `some true` results, for values that
contain no type objects (mutual subtyping of types is not transitive —
see width subtyping — so type equality breaks transitivity). -/
theorem compare_trans_aux : ∀ n : ℕ, ∀ x y z : MObject,
    sizeOf x + sizeOf y + sizeOf z < n →
    noTypesO x = true → noTypesO y = true → noTypesO z = true →
    compare x y = some true → compare y z = some true →
    compare x z = some true := by
  intro n
  induction n with
  | zero => intro x y z hsz _ _ _ _ _; omega
  | succ n ih =>
    intro x y z hsz hnx hny hnz h1 h2
    cases x with
    | mtype t => simp [noTypesO] at hnx
    | mfun i aT rT =>
      cases y with
      | mtype t => simp [noTypesO] at hny
      | mval w c => simp only [compare] at h1; injection h1 with hc; cases hc
      | mfun j aT' rT' =>
        cases z with
        | mtype t => simp [noTypesO] at hnz
        | mval u d => simp only [compare] at h2; injection h2 with hc; cases hc
        | mfun k aT'' rT'' =>
          simp only [compare, Option.some.injEq, beq_iff_eq] at h1 h2 ⊢
          omega
    | mval v a =>
      cases y with
      | mtype t => simp [noTypesO] at hny
      | mfun j aT rT => simp only [compare] at h1; injection h1 with hc; cases hc
      | mval w c =>
        cases z with
        | mtype t => simp [noTypesO] at hnz
        | mfun k aT rT => simp only [compare] at h2; injection h2 with hc; cases hc
        | mval u d =>
          cases v <;> cases w <;> cases u <;>
            first
            | (simp only [compare] at h1; injection h1 with hc; cases hc)
            | (simp only [compare] at h2; injection h2 with hc; cases hc)
            | (simp [compare] at h1 h2 ⊢; done)
            | (simp only [compare, Option.some.injEq, beq_iff_eq] at h1 h2 ⊢
               subst h1
               subst h2
               rfl)
            | (rename_i p q r
               simp only [compare, Option.some.injEq] at h1 h2 ⊢
               first
               | (simp only [beq_iff_eq] at h1 h2 ⊢; omega)
               | (simp only [beq_iff_eq] at h1; subst h1; exact h2)
               | (simp only [beq_iff_eq] at h2; subst h2; exact h1)
               | (have hfg := beqF_true_elim h1; subst hfg; exact h2)
               | (obtain ⟨s, rfl, hs⟩ := beqInt_true_elim h1
                  first
                  | (obtain ⟨t, ht, hs2⟩ := beqInt_true_elim h2
                     injection ht with ht
                     subst ht
                     simp only [beq_iff_eq]
                     have : (p : ℚ) = (r : ℚ) := by rw [← hs, hs2]
                     exact_mod_cast this)
                  | (obtain ⟨t, rfl, hs2⟩ := beqInt_true_elim h2
                     simp only [PyFloat.beqF, beq_iff_eq]
                     rw [hs, hs2])
                  | (have hgh := beqF_true_elim h2
                     rw [← hgh]
                     simp only [PyFloat.beqInt, beq_iff_eq]
                     exact_mod_cast hs)))
            | (rename_i xs ys zs
               simp only [compare] at h1 h2 ⊢
               by_cases hxy : xs.length = ys.length
               · by_cases hyz : ys.length = zs.length
                 · rw [if_pos hxy] at h1
                   rw [if_pos hyz] at h2
                   rw [if_pos (hxy.trans hyz)]
                   have hnx' : noTypesL xs = true := by
                     simpa [noTypesO, noTypesV] using hnx
                   have hny' : noTypesL ys = true := by
                     simpa [noTypesO, noTypesV] using hny
                   have hnz' : noTypesL zs = true := by
                     simpa [noTypesO, noTypesV] using hnz
                   exact cmpList_trans_of xs ys zs
                     (fun x' hx' y' hy' z' hz' hc1 hc2 =>
                       ih x' y' z' (by
                         have i1 := List.sizeOf_lt_of_mem hx'
                         have i2 := List.sizeOf_lt_of_mem hy'
                         have i3 := List.sizeOf_lt_of_mem hz'
                         simp at hsz
                         omega)
                         (noTypesL_mem hnx' hx') (noTypesL_mem hny' hy')
                         (noTypesL_mem hnz' hz') hc1 hc2)
                     hxy hyz h1 h2
                 · rw [if_neg hyz] at h2; injection h2 with hc; cases hc
               · rw [if_neg hxy] at h1; injection h1 with hc; cases hc)
            | (rename_i mx my mz
               simp only [compare] at h1 h2 ⊢
               by_cases hxy : mx.length = my.length
               · by_cases hyz : my.length = mz.length
                 · rw [if_pos hxy] at h1
                   rw [if_pos hyz] at h2
                   rw [if_pos (hxy.trans hyz)]
                   have hnx' : noTypesE mx = true := by
                     simpa [noTypesO, noTypesV] using hnx
                   have hny' : noTypesE my = true := by
                     simpa [noTypesO, noTypesV] using hny
                   have hnz' : noTypesE mz = true := by
                     simpa [noTypesO, noTypesV] using hnz
                   refine cmpDict_of_forall_true mx mz (fun p hp => ?_)
                   obtain ⟨k, xv⟩ := p
                   obtain ⟨yv, hfy, hcy⟩ := cmpDict_true_spec mx my h1 (k, xv) hp
                   have hkyv : (k, yv) ∈ my := findVal_mem hfy
                   obtain ⟨zv, hfz, hcz⟩ := cmpDict_true_spec my mz h2 (k, yv) hkyv
                   refine ⟨zv, hfz, ?_⟩
                   have hkzv : (k, zv) ∈ mz := findVal_mem hfz
                   exact ih xv yv zv (by
                       have i1 := List.sizeOf_lt_of_mem hp
                       have i2 := List.sizeOf_lt_of_mem hkyv
                       have i3 := List.sizeOf_lt_of_mem hkzv
                       simp at hsz i1 i2 i3
                       omega)
                     (noTypesE_mem hnx' hp) (noTypesE_mem hny' hkyv)
                     (noTypesE_mem hnz' hkzv) hcy hcz
                 · rw [if_neg hyz] at h2; injection h2 with hc; cases hc
               · rw [if_neg hxy] at h1; injection h1 with hc; cases hc)

/-- Packaged transitivity at the natural statement. -/
theorem compare_trans (x y z : MObject)
    (hnx : noTypesO x = true) (hny : noTypesO y = true) (hnz : noTypesO z = true)
    (h1 : compare x y = some true) (h2 : compare y z = some true) :
    compare x z = some true :=
  compare_trans_aux (sizeOf x + sizeOf y + sizeOf z + 1) x y z
    (by omega) hnx hny hnz h1 h2

/-! ### Equality as an equivalence relation (claim C9) -/

/-- C9 counterexample: `compare` is not total — on two maps of equal
size but different key sets the lookup `y[key]` raises `KeyError`
(modelled as `none`) — and it is not reflexive at a `nan` leaf, since
Python's `nan == nan` is false. -/
theorem claim_C9_cex :
    compare (mval (vdict [("a", mval (vint 1) none)]) none)
        (mval (vdict [("b", mval (vint 1) none)]) none) = none ∧
    compare (mval (vfloat .nan) none) (mval (vfloat .nan) none)
      = some false := by
  constructor
  · simp [compare, cmpDict, findVal]
  · simp [compare, PyFloat.beqF]

/-- C9 (amended): `compare` is an equivalence relation only on a
restricted domain, and is not total. (1) Reflexivity holds for values
with no NaN leaf, unique keys in every nested dict, and contained type
objects reflexive for the subtype check; (2) whenever both orientations
return a boolean the booleans agree (unique nested dict keys assumed);
(3) transitivity of `some true` holds for values containing no type
objects; (4) on two maps of equal size with different key sets the
comparison raises `KeyError` (modelled `none`) instead of returning a
boolean. -/
theorem claim_C9 :
    (∀ x : MObject, selfEqSafeO x = true → compare x x = some true) ∧
    (∀ (x y : MObject) (b1 b2 : Bool), dictsNodupO x = true →
      dictsNodupO y = true → compare x y = some b1 → compare y x = some b2 →
      b1 = b2) ∧
    (∀ x y z : MObject, noTypesO x = true → noTypesO y = true →
      noTypesO z = true → compare x y = some true → compare y z = some true →
      compare x z = some true) ∧
    (∀ (k1 k2 : String) (v1 v2 : MObject), k1 ≠ k2 →
      compare (mval (vdict [(k1, v1)]) none) (mval (vdict [(k2, v2)]) none)
        = none) := by
  refine ⟨compare_refl, compare_symm, compare_trans, ?_⟩
  intro k1 k2 v1 v2 hne
  simp only [compare]
  rw [if_pos (show ([(k1, v1)] : List (String × MObject)).length
    = ([(k2, v2)] : List (String × MObject)).length from rfl), cmpDict_cons]
  have hf : findVal k1 [(k2, v2)] = (none : Option MObject) := by
    simp only [findVal]
    rw [if_neg (fun h => hne h.symm)]
  rw [hf]

/-! ### `checktype(v, typeof(v))` (claim C3) -/

/-- The primitive type tag `_typeof_recursion` assigns to a scalar
value object (`None`/`bool`/`int`/`float`/`str` payloads). -/
def primTy : MObject → Option Prim
  | .mval .vnull _ => some .pNull
  | .mval (.vbool _) _ => some .pBool
  | .mval (.vint _) _ => some .pInt
  | .mval (.vfloat _) _ => some .pNum
  | .mval (.vstr _) _ => some .pStr
  | _ => none

/-- Lists whose items are all scalar values. -/
def tameItems : List MObject → Bool
  | [] => true
  | x :: xs => (primTy x).isSome && tameItems xs

mutual
/-- Fragment on which the invariant (P1) `checktype(v, typeof(v))` is
provable: lists hold only scalar items, every nested dict has unique
keys, and the types stored on function values are reflexive-safe. -/
def tameO : MObject → Bool
  | .mval v _ => tameV v
  | .mtype _ => true
  | .mfun _ aT rT => reflSafeT aT && reflSafeT rT
def tameV : MVal → Bool
  | .vlist xs => tameItems xs
  | .vdict m => nodupKeys m && tameEntries m
  | _ => true
def tameEntries : List (String × MObject) → Bool
  | [] => true
  | (_, x) :: m => tameO x && tameEntries m
end

theorem tameItems_mem {xs : List MObject} (h : tameItems xs = true) :
    ∀ x ∈ xs, (primTy x).isSome := by
  induction xs with
  | nil => intro x hx; cases hx
  | cons y ys ih =>
    simp only [tameItems, Bool.and_eq_true] at h
    intro x hx
    rcases List.mem_cons.mp hx with rfl | hx'
    · exact h.1
    · exact ih h.2 x hx'

theorem tameEntries_mem {m : List (String × MObject)} (h : tameEntries m = true)
    {k : String} {x : MObject} (hm : (k, x) ∈ m) : tameO x = true := by
  induction m with
  | nil => cases hm
  | cons p rest ih =>
    obtain ⟨k', x'⟩ := p
    simp only [tameEntries, Bool.and_eq_true] at h
    rcases List.mem_cons.mp hm with he | hm'
    · cases he; exact h.1
    · exact ih h.2 hm'

theorem typeofE_prim : ∀ (x : MObject) (p : Prim), primTy x = some p →
    typeofE x = some (.terminal p)
  | .mval .vnull a, p, h => by
    simp only [primTy, Option.some.injEq] at h; subst h; simp [typeofE]
  | .mval (.vbool b) a, p, h => by
    simp only [primTy, Option.some.injEq] at h; subst h; simp [typeofE]
  | .mval (.vint n) a, p, h => by
    simp only [primTy, Option.some.injEq] at h; subst h; simp [typeofE]
  | .mval (.vfloat f) a, p, h => by
    simp only [primTy, Option.some.injEq] at h; subst h; simp [typeofE]
  | .mval (.vstr s) a, p, h => by
    simp only [primTy, Option.some.injEq] at h; subst h; simp [typeofE]
  | .mval (.vlist l) a, p, h => by simp [primTy] at h
  | .mval (.vdict m) a, p, h => by simp [primTy] at h
  | .mtype t, p, h => by simp [primTy] at h
  | .mfun i aT rT, p, h => by simp [primTy] at h

theorem primTy_ne_any : ∀ (x : MObject) (p : Prim), primTy x = some p →
    p ≠ .pAny
  | .mval .vnull a, p, h => by
    simp only [primTy, Option.some.injEq] at h; subst h; simp
  | .mval (.vbool b) a, p, h => by
    simp only [primTy, Option.some.injEq] at h; subst h; simp
  | .mval (.vint n) a, p, h => by
    simp only [primTy, Option.some.injEq] at h; subst h; simp
  | .mval (.vfloat f) a, p, h => by
    simp only [primTy, Option.some.injEq] at h; subst h; simp
  | .mval (.vstr s) a, p, h => by
    simp only [primTy, Option.some.injEq] at h; subst h; simp
  | .mval (.vlist l) a, p, h => by simp [primTy] at h
  | .mval (.vdict m) a, p, h => by simp [primTy] at h
  | .mtype t, p, h => by simp [primTy] at h
  | .mfun i aT rT, p, h => by simp [primTy] at h

theorem checkty_any (x : MObject) : checkty x (.terminal .pAny) = some true := by
  cases x with
  | mval v a => cases v <;> simp [checkty]
  | mtype t => simp [checkty]
  | mfun i aT rT => simp [checkty]

theorem checkty_prim_self : ∀ (x : MObject) (p : Prim), primTy x = some p →
    checkty x (.terminal p) = some true
  | .mval .vnull a, p, h => by
    simp only [primTy, Option.some.injEq] at h; subst h; simp [checkty]
  | .mval (.vbool b) a, p, h => by
    simp only [primTy, Option.some.injEq] at h; subst h; simp [checkty]
  | .mval (.vint n) a, p, h => by
    simp only [primTy, Option.some.injEq] at h; subst h; simp [checkty]
  | .mval (.vfloat f) a, p, h => by
    simp only [primTy, Option.some.injEq] at h; subst h; simp [checkty]
  | .mval (.vstr s) a, p, h => by
    simp only [primTy, Option.some.injEq] at h; subst h; simp [checkty]
  | .mval (.vlist l) a, p, h => by simp [primTy] at h
  | .mval (.vdict m) a, p, h => by simp [primTy] at h
  | .mtype t, p, h => by simp [primTy] at h
  | .mfun i aT rT, p, h => by simp [primTy] at h

theorem checkty_prim_opt : ∀ (x : MObject) (p : Prim),
    (primTy x = some .pNull ∨ primTy x = some p) →
    checkty x (.unary (.terminal p)) = some true
  | .mval .vnull a, p, _ => by simp [checkty]
  | .mval (.vbool b) a, p, h => by
    rcases h with h | h
    · simp [primTy] at h
    · simp only [primTy, Option.some.injEq] at h
      subst h; simp [checkty]
  | .mval (.vint n) a, p, h => by
    rcases h with h | h
    · simp [primTy] at h
    · simp only [primTy, Option.some.injEq] at h
      subst h; simp [checkty]
  | .mval (.vfloat f) a, p, h => by
    rcases h with h | h
    · simp [primTy] at h
    · simp only [primTy, Option.some.injEq] at h
      subst h; simp [checkty]
  | .mval (.vstr s) a, p, h => by
    rcases h with h | h
    · simp [primTy] at h
    · simp only [primTy, Option.some.injEq] at h
      subst h; simp [checkty]
  | .mval (.vlist l) a, p, h => by rcases h with h | h <;> simp [primTy] at h
  | .mval (.vdict m) a, p, h => by rcases h with h | h <;> simp [primTy] at h
  | .mtype t, p, h => by rcases h with h | h <;> simp [primTy] at h
  | .mfun i aT rT, p, h => by rcases h with h | h <;> simp [primTy] at h

theorem subty_terminal_terminal (q p : Prim) (hp : p ≠ .pAny) :
    subty (.terminal q) (.terminal p) = some (q == p) := by
  rw [subty]
  simp only [resolveT]
  cases p <;> first
  | exact absurd rfl hp
  | (cases q <;> simp [subtyR])

/-- Reduction of one scan step on a scalar item against a running
scalar most-general type. -/
theorem scanItems_prim_step (x : MObject) (rest : List MObject) (q p : Prim)
    (nb : Bool) (ht : typeofE x = some (.terminal q)) (hqn : q ≠ .pNull)
    (hqa : q ≠ .pAny) (hpa : p ≠ .pAny) :
    scanItems (x :: rest) (some (.terminal p)) nb =
      if q = p then scanItems rest (some (.terminal p)) nb
      else some (some (.terminal p), nb, true) := by
  rw [scanItems_cons_nonnull x rest _ nb _ ht (fun hc => hqn (by injection hc))]
  dsimp only
  by_cases hqp : q = p
  · subst hqp
    rw [subty_terminal_terminal q q hpa]
    simp
  · rw [subty_terminal_terminal q p hpa]
    have h1 : (q == p) = false := by simp [hqp]
    rw [h1]
    dsimp only
    rw [subty_terminal_terminal p q hqa]
    have h2 : (p == q) = false := by simp [Ne.symm hqp]
    rw [h2]
    simp [hqp]

/-- Behaviour of the most-general-type scan on a list of scalar items,
once the running type is a scalar terminal: the running type never
changes, and if the `anytype` flag stays unset every item is a null or
has exactly the running type. -/
theorem scanItems_prim : ∀ (xs : List MObject) (p : Prim) (nb : Bool),
    (∀ x ∈ xs, (primTy x).isSome) → p ≠ .pAny → p ≠ .pNull →
    ∃ nb2 af,
      scanItems xs (some (.terminal p)) nb = some (some (.terminal p), nb2, af) ∧
      (nb = true → nb2 = true) ∧
      (af = false →
        (∀ x ∈ xs, primTy x = some .pNull ∨ primTy x = some p) ∧
        (nb2 = false → ∀ x ∈ xs, primTy x = some p))
  | [], p, nb, _, _, _ =>
    ⟨nb, false, by simp [scanItems], fun h => h, fun _ =>
      ⟨fun x hx => absurd hx (List.not_mem_nil x),
       fun _ x hx => absurd hx (List.not_mem_nil x)⟩⟩
  | x :: xs, p, nb, hall, hpa, hpn => by
    have hx := hall x (List.mem_cons_self x xs)
    have hxs : ∀ y ∈ xs, (primTy y).isSome :=
      fun y hy => hall y (List.mem_cons_of_mem x hy)
    obtain ⟨q, hq⟩ := Option.isSome_iff_exists.mp hx
    have ht := typeofE_prim x q hq
    by_cases hqn : q = .pNull
    · subst hqn
      obtain ⟨nb2, af, heq, hmono, haf⟩ := scanItems_prim xs p true hxs hpa hpn
      refine ⟨nb2, af, ?_, fun _ => hmono rfl, ?_⟩
      · rw [scanItems, ht]
        exact heq
      · intro haf0
        obtain ⟨h1, h2⟩ := haf haf0
        refine ⟨fun y hy => ?_, fun hnb2 => ?_⟩
        · rcases List.mem_cons.mp hy with rfl | hy'
          · exact Or.inl hq
          · exact h1 y hy'
        · have := hmono rfl
          rw [hnb2] at this
          cases this
    · have hqa := primTy_ne_any x q hq
      rw [scanItems_prim_step x xs q p nb ht hqn hqa hpa]
      by_cases hqp : q = p
      · rw [if_pos hqp]
        subst hqp
        obtain ⟨nb2, af, heq, hmono, haf⟩ := scanItems_prim xs q nb hxs hpa hpn
        refine ⟨nb2, af, heq, hmono, fun haf0 => ?_⟩
        obtain ⟨h1, h2⟩ := haf haf0
        refine ⟨fun y hy => ?_, fun hnb2 y hy => ?_⟩
        · rcases List.mem_cons.mp hy with rfl | hy'
          · exact Or.inr hq
          · exact h1 y hy'
        · rcases List.mem_cons.mp hy with rfl | hy'
          · exact hq
          · exact h2 hnb2 y hy'
      · rw [if_neg hqp]
        exact ⟨nb, true, rfl, fun h => h, fun hc => by cases hc⟩

/-- The scan started with no running type (as `_typeof_recursion` does):
either the list is all nulls and the running type stays `None`, or a
first scalar fixes it. -/
theorem scanItems_prim_start : ∀ (xs : List MObject) (nb : Bool),
    (∀ x ∈ xs, (primTy x).isSome) →
    (∃ nb1, scanItems xs none nb = some (none, nb1, false) ∧
      ∀ x ∈ xs, primTy x = some .pNull) ∨
    (∃ p nb2 af, p ≠ .pAny ∧ p ≠ .pNull ∧
      scanItems xs none nb = some (some (.terminal p), nb2, af) ∧
      (nb = true → nb2 = true) ∧
      (af = false →
        (∀ x ∈ xs, primTy x = some .pNull ∨ primTy x = some p) ∧
        (nb2 = false → ∀ x ∈ xs, primTy x = some p)))
  | [], nb, _ =>
    Or.inl ⟨nb, by simp [scanItems], fun x hx => absurd hx (List.not_mem_nil x)⟩
  | x :: xs, nb, hall => by
    have hx := hall x (List.mem_cons_self x xs)
    have hxs : ∀ y ∈ xs, (primTy y).isSome :=
      fun y hy => hall y (List.mem_cons_of_mem x hy)
    obtain ⟨q, hq⟩ := Option.isSome_iff_exists.mp hx
    have ht := typeofE_prim x q hq
    by_cases hqn : q = .pNull
    · subst hqn
      have hstep : scanItems (x :: xs) none nb = scanItems xs none true := by
        rw [scanItems, ht]
      rcases scanItems_prim_start xs true hxs with
        ⟨nb1, heq, hnull⟩ | ⟨p, nb2, af, hpa, hpn, heq, hmono, haf⟩
      · refine Or.inl ⟨nb1, by rw [hstep]; exact heq, fun y hy => ?_⟩
        rcases List.mem_cons.mp hy with rfl | hy'
        · exact hq
        · exact hnull y hy'
      · refine Or.inr ⟨p, nb2, af, hpa, hpn, by rw [hstep]; exact heq,
          fun _ => hmono rfl, fun haf0 => ?_⟩
        obtain ⟨h1, h2⟩ := haf haf0
        refine ⟨fun y hy => ?_, fun hnb2 => ?_⟩
        · rcases List.mem_cons.mp hy with rfl | hy'
          · exact Or.inl hq
          · exact h1 y hy'
        · have := hmono rfl
          rw [hnb2] at this
          cases this
    · have hqa := primTy_ne_any x q hq
      have hstep : scanItems (x :: xs) none nb =
          scanItems xs (some (.terminal q)) nb := by
        rw [scanItems_cons_nonnull x xs _ nb _ ht (fun hc => hqn (by injection hc))]
      obtain ⟨nb2, af, heq, hmono, haf⟩ := scanItems_prim xs q nb hxs hqa hqn
      refine Or.inr ⟨q, nb2, af, hqa, hqn, by rw [hstep]; exact heq, hmono,
        fun haf0 => ?_⟩
      obtain ⟨h1, h2⟩ := haf haf0
      refine ⟨fun y hy => ?_, fun hnb2 y hy => ?_⟩
      · rcases List.mem_cons.mp hy with rfl | hy'
        · exact Or.inr hq
        · exact h1 y hy'
      · rcases List.mem_cons.mp hy with rfl | hy'
        · exact hq
        · exact h2 hnb2 y hy'

theorem checkList_of_all (xs : List MObject) (t : TypeExpr)
    (h : ∀ x ∈ xs, checkty x t = some true) : checkList xs t = some true := by
  induction xs with
  | nil => simp [checkList]
  | cons x rest ih =>
    rw [checkList, h x (List.mem_cons_self x rest)]
    exact ih (fun y hy => h y (List.mem_cons_of_mem x hy))

theorem dictTypes_some : ∀ (m : List (String × MObject)),
    (∀ p ∈ m, ∃ t, typeofE p.2 = some t) →
    ∃ fields, dictTypes m = some fields
  | [], _ => ⟨[], by simp [dictTypes]⟩
  | (k, x) :: rest, h => by
    obtain ⟨t, ht⟩ := h (k, x) (List.mem_cons_self _ _)
    obtain ⟨ts, hts⟩ := dictTypes_some rest (fun p hp => h p (List.mem_cons_of_mem _ hp))
    refine ⟨(k, t) :: ts, ?_⟩
    rw [dictTypes, ht]
    dsimp only
    rw [hts]

/-- If every entry of `sub` is found (with its own value) in `mfull`
and checks against its own inferred type, then the inferred field list
of `sub` passes `checkFields` against `mfull` with no required keys. -/
theorem checkFields_dict (mfull : List (String × MObject)) :
    ∀ (sub : List (String × MObject)) (fields : List (String × TypeExpr)),
    dictTypes sub = some fields →
    (∀ p ∈ sub, findVal p.1 mfull = some p.2) →
    (∀ p ∈ sub, ∀ t, typeofE p.2 = some t → checkty p.2 t = some true) →
    checkFields mfull fields [] = some true
  | [], fields, hdt, _, _ => by
    simp only [dictTypes, Option.some.injEq] at hdt
    subst hdt
    simp [checkFields]
  | (k, x) :: rest, fields, hdt, hfind, hck => by
    rw [dictTypes] at hdt
    cases ht : typeofE x with
    | none => rw [ht] at hdt; cases hdt
    | some t =>
      rw [ht] at hdt
      dsimp only at hdt
      cases hts : dictTypes rest with
      | none => rw [hts] at hdt; cases hdt
      | some ts =>
        rw [hts] at hdt
        dsimp only at hdt
        injection hdt with hdt
        subst hdt
        rw [checkFields_cons, hfind (k, x) (List.mem_cons_self _ _)]
        dsimp only
        rw [hck (k, x) (List.mem_cons_self _ _) t ht]
        dsimp only
        exact checkFields_dict mfull rest ts hts
          (fun p hp => hfind p (List.mem_cons_of_mem _ hp))
          (fun p hp => hck p (List.mem_cons_of_mem _ hp))

/-- Main induction for (P1) on the tame fragment. -/
theorem checksOwn_aux : ∀ n : ℕ, ∀ v : MObject, sizeOf v < n →
    tameO v = true → checksOwnType v = some true := by
  intro n
  induction n with
  | zero => intro v h _; omega
  | succ n ih =>
    intro v hsz htame
    cases v with
    | mtype t => simp [checksOwnType, typeofE, checkty]
    | mfun i aT rT =>
      have hrs : reflSafeT (.binary aT rT) = true := by
        simp only [tameO] at htame
        simp only [reflSafeT]
        exact htame
      simp only [checksOwnType, typeofE, checkty]
      exact subty_refl _ hrs
    | mval mv a =>
      cases mv with
      | vnull => simp [checksOwnType, typeofE, checkty]
      | vbool b => simp [checksOwnType, typeofE, checkty]
      | vint n' => simp [checksOwnType, typeofE, checkty]
      | vfloat f => simp [checksOwnType, typeofE, checkty]
      | vstr s => simp [checksOwnType, typeofE, checkty]
      | vlist xs =>
        cases xs with
        | nil => simp [checksOwnType, typeofE, checkty, checkList]
        | cons x rest =>
          have hitems : tameItems (x :: rest) = true := by
            simpa [tameO, tameV] using htame
          have hprim := tameItems_mem hitems
          rcases scanItems_prim_start (x :: rest) false hprim with
            ⟨nb1, heq, hnull⟩ | ⟨p, nb2, af, hpa, hpn, heq, _, haf⟩
          · simp only [checksOwnType, typeofE, heq, checkty,
                  Bool.false_eq_true, if_false, if_true]
            exact checkList_of_all _ _
              (fun y hy => checkty_prim_self y .pNull (hnull y hy))
          · cases af with
            | true =>
              simp only [checksOwnType, typeofE, heq, checkty,
                  Bool.false_eq_true, if_false, if_true]
              exact checkList_of_all _ _ (fun y _ => checkty_any y)
            | false =>
              obtain ⟨hitems', hnb⟩ := haf rfl
              cases nb2 with
              | false =>
                simp only [checksOwnType, typeofE, heq, checkty,
                  Bool.false_eq_true, if_false, if_true]
                exact checkList_of_all _ _
                  (fun y hy => checkty_prim_self y p (hnb rfl y hy))
              | true =>
                simp only [checksOwnType, typeofE, heq, checkty,
                  Bool.false_eq_true, if_false, if_true]
                exact checkList_of_all _ _
                  (fun y hy => checkty_prim_opt y p (hitems' y hy))
      | vdict m =>
        have hnd : nodupKeys m = true ∧ tameEntries m = true := by
          simpa [tameO, tameV] using htame
        have hent : ∀ p ∈ m, ∃ t, typeofE p.2 = some t ∧
            checkty p.2 t = some true := by
          intro p hp
          obtain ⟨k, x⟩ := p
          have hto : tameO x = true := tameEntries_mem hnd.2 hp
          have hsx : sizeOf x < n := by
            have hlt := List.sizeOf_lt_of_mem hp
            simp at hsz hlt
            omega
          have hco := ih x hsx hto
          cases ht : typeofE x with
          | none =>
            simp only [checksOwnType, ht] at hco
            exact Option.noConfusion hco
          | some t =>
            refine ⟨t, rfl, ?_⟩
            simpa [checksOwnType, ht] using hco
        obtain ⟨fields, hfields⟩ :=
          dictTypes_some m (fun p hp => (hent p hp).imp (fun t h => h.1))
        simp only [checksOwnType, typeofE, hfields]
        simp only [checkty]
        refine checkFields_dict m m fields hfields (fun p hp => ?_)
          (fun p hp t ht => ?_)
        · obtain ⟨k, x⟩ := p
          exact findVal_of_nodup_mem hnd.1 hp
        · obtain ⟨t', ht', hck⟩ := hent p hp
          rw [ht] at ht'
          injection ht' with h''
          subst h''
          exact hck

/-- C3 counterexample: the list value `[type Int, null]` fails (P1).
Its inferred type is `[Type?]`, but `_checktype_recursion` has no case
for a type object against a `TypeUnary` target, so the check falls to
the final `return False`. -/
theorem claim_C3_cex :
    checksOwnType (mval (vlist [mtype (terminal .pInt), mval vnull none]) none)
      = some false := by
  simp [checksOwnType, typeofE, scanItems, subty, resolveT, subtyR, checkty,
    checkList]

/-- C3 (amended): `checktype(v, typeof(v))` returns true on the tame
fragment: lists hold only scalar items, every nested dict has unique
keys, and function values carry reflexive-safe types.  Outside the
fragment (P1) fails, e.g. on a list mixing a type object with a null. -/
theorem claim_C3 (v : MObject) (h : tameO v = true) :
    checksOwnType v = some true :=
  checksOwn_aux (sizeOf v + 1) v (by omega) h

theorem claim_C3_witness :
    tameO (mval (vdict [("a", mval (vint 1) none),
        ("b", mval (vlist [mval (vint 2) none, mval vnull none]) none)]) none)
      = true ∧
    checksOwnType (mval (vdict [("a", mval (vint 1) none),
        ("b", mval (vlist [mval (vint 2) none, mval vnull none]) none)]) none)
      = some true := by
  have h : tameO (mval (vdict [("a", mval (vint 1) none),
      ("b", mval (vlist [mval (vint 2) none, mval vnull none]) none)]) none)
      = true := by
    simp [tameO, tameV, tameEntries, tameItems, nodupKeys, primTy]
  exact ⟨h, claim_C3 _ h⟩

theorem claim_C9_witness :
    compare (mval (vint 3) none) (mval (vint 3) none) = some true ∧
    (true : Bool) = true ∧
    compare (mval (vint 1) none) (mval (vint 1) none) = some true ∧
    compare (mval (vdict [("a", mval vnull none)]) none)
        (mval (vdict [("b", mval vnull none)]) none) = none := by
  refine ⟨claim_C9.1 (mval (vint 3) none) (by rfl),
          claim_C9.2.1 (mval (vbool true) none) (mval (vbool true) none)
            true true (by rfl) (by rfl) (by simp [compare]) (by simp [compare]),
          claim_C9.2.2.1 (mval (vint 1) none) (mval (vint 1) none)
            (mval (vint 1) none) (by rfl) (by rfl) (by rfl)
            (by simp [compare]) (by simp [compare]),
          claim_C9.2.2.2 "a" "b" (mval vnull none) (mval vnull none)
            (by decide)⟩

end MindScript
